import Mathlib

set_option maxRecDepth 16000

/-!
Verification of the deterministic keyspace engine of `qya/everybtckey`.

The TypeScript sources are shallowly embedded: `Uint8Array` values become
`List Nat` with every element `< 256`, JavaScript `BigInt` becomes `Nat`,
JS strings become Lean `String` (built from `List Char`), fallible code
returns `Option`/`Except`, and the stateful React controller becomes
explicit state-passing functions.  `Date.now()` is passed in as an explicit
`now : Nat` argument wherever the source consults it.
-/

/-- Big-endian fold of a digit list into a number, the common loop shape
`num = num * base + digit` used by `BitcoinCrypto.bytesToBigInt` (base 256),
`Base58.encode` (base 256) and `Base58.decode` (base 58). -/
def beFold (base : Nat) (l : List Nat) : Nat :=
  l.foldl (fun n b => n * base + b) 0

/-- Minimal big-endian digit expansion in a given base (most significant
digit first, no leading zero digit, `0 ↦ []`).  This is the loop
`while (num > 0) { digits.unshift(num % base); num /= base }` shared by
`Base58.encode`, `Base58.decode` and the spec description of `uintToBytes`. -/
def natToDigitsBEAux (base : Nat) : Nat → Nat → List Nat
  | 0, _ => []
  | fuel + 1, n =>
    if n = 0 ∨ base ≤ 1 then [] else
      natToDigitsBEAux base fuel (n / base) ++ [n % base]

def natToDigitsBE (base n : Nat) : List Nat := natToDigitsBEAux base n n

/-- The fuel argument is irrelevant once it covers the value. -/
theorem natToDigitsBEAux_congr (base : Nat) :
    ∀ n f1 f2, n ≤ f1 → n ≤ f2 →
      natToDigitsBEAux base f1 n = natToDigitsBEAux base f2 n := by
  intro n
  induction n using Nat.strong_induction_on with
  | _ n ih =>
    intro f1 f2 h1 h2
    match f1, f2 with
    | 0, 0 => rfl
    | 0, f2 + 1 =>
      have h0 : n = 0 := by omega
      subst h0
      simp [natToDigitsBEAux]
    | f1 + 1, 0 =>
      have h0 : n = 0 := by omega
      subst h0
      simp [natToDigitsBEAux]
    | f1 + 1, f2 + 1 =>
      simp only [natToDigitsBEAux]
      by_cases hc : n = 0 ∨ base ≤ 1
      · rw [if_pos hc, if_pos hc]
      · rw [if_neg hc, if_neg hc]
        push_neg at hc
        have hdiv : n / base < n := Nat.div_lt_self (by omega) (by omega)
        rw [ih (n / base) hdiv f1 f2 (by omega) (by omega)]

theorem natToDigitsBE_zero (base : Nat) : natToDigitsBE base 0 = [] := rfl

theorem natToDigitsBE_pos (base n : Nat) (hn : n ≠ 0) (hb : 1 < base) :
    natToDigitsBE base n = natToDigitsBE base (n / base) ++ [n % base] := by
  unfold natToDigitsBE
  obtain ⟨m, rfl⟩ : ∃ m, n = m + 1 := ⟨n - 1, by omega⟩
  show natToDigitsBEAux base (m + 1) (m + 1) = _
  simp only [natToDigitsBEAux]
  rw [if_neg (by push_neg; exact ⟨hn, by omega⟩)]
  congr 1
  have hdiv : (m + 1) / base < m + 1 := Nat.div_lt_self (by omega) hb
  exact natToDigitsBEAux_congr base _ _ _ (by omega) (le_refl _)

/-- Folding with an accumulator distributes over the digit expansion. -/
theorem beFold_foldl_digits (base : Nat) (hb : 1 < base) (n : Nat) :
    ∀ acc : Nat,
      (natToDigitsBE base n).foldl (fun m b => m * base + b) acc =
        acc * base ^ (natToDigitsBE base n).length + n := by
  induction n using Nat.strong_induction_on with
  | _ n ih =>
    intro acc
    by_cases hn : n = 0
    · subst hn; simp [natToDigitsBE_zero]
    · rw [natToDigitsBE_pos base n hn hb]
      rw [List.foldl_append]
      have hdiv : n / base < n :=
        Nat.div_lt_self (Nat.pos_of_ne_zero hn) hb
      rw [ih (n / base) hdiv acc]
      simp only [List.foldl_cons, List.foldl_nil, List.length_append,
        List.length_singleton]
      have hmod : base * (n / base) + n % base = n := Nat.div_add_mod n base
      rw [pow_succ]
      ring_nf
      omega

/-- The digit expansion folds back to the number it expands. -/
theorem beFold_natToDigitsBE (base : Nat) (hb : 1 < base) (n : Nat) :
    beFold base (natToDigitsBE base n) = n := by
  unfold beFold
  rw [beFold_foldl_digits base hb n 0]
  simp

/-- Every digit of the expansion is `< base`. -/
theorem natToDigitsBE_lt (base n : Nat) (hb : 1 < base) :
    ∀ d ∈ natToDigitsBE base n, d < base := by
  induction n using Nat.strong_induction_on with
  | _ n ih =>
    intro d hd
    by_cases hn : n = 0
    · subst hn; rw [natToDigitsBE_zero] at hd; cases hd
    · rw [natToDigitsBE_pos base n hn hb] at hd
      rcases List.mem_append.mp hd with h | h
      · exact ih (n / base) (Nat.div_lt_self (Nat.pos_of_ne_zero hn) hb) d h
      · rcases List.mem_singleton.mp h with rfl
        exact Nat.mod_lt _ (by omega)

/-- The leading digit of a nonzero number's expansion is nonzero. -/
theorem natToDigitsBE_head_ne_zero (base n : Nat) (hb : 1 < base) (hn : n ≠ 0) :
    ∀ d, (natToDigitsBE base n).head? = some d → d ≠ 0 := by
  induction n using Nat.strong_induction_on with
  | _ n ih =>
    intro d hd
    rw [natToDigitsBE_pos base n hn hb] at hd
    by_cases hq : n / base = 0
    · rw [hq, natToDigitsBE_zero] at hd
      simp only [List.nil_append, List.head?_cons, Option.some.injEq] at hd
      have hlt : n < base := by
        by_contra hge
        have : 0 < n / base := Nat.div_pos (by omega) (by omega)
        omega
      rw [Nat.mod_eq_of_lt hlt] at hd
      omega
    · have hne : natToDigitsBE base (n / base) ≠ [] := by
        rw [natToDigitsBE_pos base (n / base) hq hb]
        simp
      rw [List.head?_append_of_ne_nil _ hne] at hd
      exact ih (n / base) (Nat.div_lt_self (Nat.pos_of_ne_zero hn) hb) hq d hd

theorem natToDigitsBE_ne_nil (base n : Nat) (hb : 1 < base) (hn : n ≠ 0) :
    natToDigitsBE base n ≠ [] := by
  rw [natToDigitsBE_pos base n hn hb]; simp

/-- `beFold` with all-zero digits is zero, and conversely. -/
theorem beFold_from_acc (base : Nat) (l : List Nat) (acc : Nat) :
    acc * base ^ l.length ≤ l.foldl (fun n b => n * base + b) acc := by
  induction l generalizing acc with
  | nil => simp
  | cons b t ih =>
    simp only [List.foldl_cons, List.length_cons]
    calc acc * base ^ (t.length + 1) = acc * base * base ^ t.length := by ring
      _ ≤ (acc * base + b) * base ^ t.length := by
          exact Nat.mul_le_mul_right _ (by omega)
      _ ≤ t.foldl (fun n b => n * base + b) (acc * base + b) := ih _

/-- If the first element of `l` is nonzero and `1 < base` then the fold is
positive. -/
theorem beFold_pos (base : Nat) (hb : 0 < base) (h0 : Nat) (t : List Nat)
    (hh : h0 ≠ 0) : 0 < beFold base (h0 :: t) := by
  unfold beFold
  simp only [List.foldl_cons, Nat.zero_mul, Nat.zero_add]
  have hle := beFold_from_acc base t h0
  have hp : 0 < base ^ t.length := Nat.pos_pow_of_pos _ hb
  have hmul : 0 < h0 * base ^ t.length := Nat.mul_pos (Nat.pos_of_ne_zero hh) hp
  omega

/-- `beFold` of a list of digits `< base` is bounded by `base ^ length`. -/
theorem beFold_lt (base : Nat) (hb : 1 < base) (l : List Nat)
    (hl : ∀ x ∈ l, x < base) :
    ∀ acc, l.foldl (fun n b => n * base + b) acc < (acc + 1) * base ^ l.length := by
  induction l with
  | nil => intro acc; simp
  | cons b t ih =>
    intro acc
    simp only [List.foldl_cons, List.length_cons]
    have hb' : b < base := hl b (List.mem_cons_self _ _)
    have ht : ∀ x ∈ t, x < base := fun x hx => hl x (List.mem_cons_of_mem _ hx)
    calc t.foldl (fun n b => n * base + b) (acc * base + b)
        < (acc * base + b + 1) * base ^ t.length := ih ht _
      _ ≤ ((acc + 1) * base) * base ^ t.length := by
          exact Nat.mul_le_mul_right _ (by nlinarith)
      _ = (acc + 1) * base ^ (t.length + 1) := by ring

/-- Prepending a zero digit does not change the fold. -/
theorem beFold_cons_zero (base : Nat) (t : List Nat) :
    beFold base (0 :: t) = beFold base t := by
  unfold beFold
  simp

/-- Folding a zero number means every digit is zero. -/
theorem beFold_eq_zero (base : Nat) (hb : 0 < base) (l : List Nat)
    (h : beFold base l = 0) : ∀ x ∈ l, x = 0 := by
  intro x hx
  by_contra hne
  rcases List.append_of_mem hx with ⟨s, t, rfl⟩
  unfold beFold at h
  rw [List.foldl_append] at h
  simp only [List.foldl_cons] at h
  have hle := beFold_from_acc base t
    (s.foldl (fun n b => n * base + b) 0 * base + x)
  have hp : 0 < base ^ t.length := Nat.pos_pow_of_pos _ hb
  have hpos : 0 < (s.foldl (fun n b => n * base + b) 0 * base + x) *
      base ^ t.length :=
    Nat.mul_pos (by omega) hp
  omega

/-- The minimal expansion inverts the fold on lists with digits `< base`
whose first element is nonzero (or which are empty). -/
theorem natToDigitsBE_beFold (base : Nat) (hb : 1 < base) (l : List Nat)
    (hlt : ∀ x ∈ l, x < base) (hhead : l = [] ∨ ∀ d, l.head? = some d → d ≠ 0) :
    natToDigitsBE base (beFold base l) = l := by
  induction l using List.reverseRecOn with
  | nil => simp [beFold, natToDigitsBE_zero]
  | append_singleton t x ih =>
    have hx : x < base := hlt x (by simp)
    have hfold : beFold base (t ++ [x]) = beFold base t * base + x := by
      unfold beFold; rw [List.foldl_append]; simp
    rcases hhead with h | hhead
    · exact absurd h (by simp)
    by_cases hz : beFold base t * base + x = 0
    · have hx0 : x = 0 := by omega
      have ht0 : beFold base t = 0 := by
        rcases Nat.eq_zero_of_mul_eq_zero (by omega : beFold base t * base = 0)
          with h | h
        · exact h
        · omega
      cases t with
      | nil =>
        exact absurd hx0 (hhead x (by simp))
      | cons t0 ts =>
        have ht00 : t0 = 0 := beFold_eq_zero base (by omega) _ ht0 t0 (by simp)
        exact absurd ht00 (hhead t0 (by simp))
    · rw [hfold, natToDigitsBE_pos base _ hz hb]
      have hdiv : (beFold base t * base + x) / base = beFold base t := by
        rw [Nat.mul_comm (beFold base t) base,
          Nat.mul_add_div (by omega : 0 < base), Nat.div_eq_of_lt hx,
          Nat.add_zero]
      have hmod : (beFold base t * base + x) % base = x := by
        rw [Nat.mul_comm (beFold base t) base, Nat.mul_add_mod]
        exact Nat.mod_eq_of_lt hx
      rw [hdiv, hmod]
      congr 1
      apply ih
      · exact fun y hy => hlt y (List.mem_append_left _ hy)
      · cases t with
        | nil => exact Or.inl rfl
        | cons t0 ts =>
          refine Or.inr fun d hd => ?_
          apply hhead
          simp only [List.head?_cons] at hd ⊢
          simpa using hd

/-- Fixed-width big-endian byte expansion: the low `n` bytes of `v`,
most significant first (zero-padded on the left, truncating above). -/
def natFixedBE (v : Nat) : Nat → List Nat
  | 0 => []
  | n + 1 => natFixedBE (v / 256) n ++ [v % 256]

theorem natFixedBE_length (v n : Nat) : (natFixedBE v n).length = n := by
  induction n generalizing v with
  | zero => rfl
  | succ n ih => simp [natFixedBE, ih]

theorem natFixedBE_lt (v n : Nat) : ∀ x ∈ natFixedBE v n, x < 256 := by
  induction n generalizing v with
  | zero => intro x hx; cases hx
  | succ n ih =>
    intro x hx
    simp only [natFixedBE, List.mem_append, List.mem_singleton] at hx
    rcases hx with h | rfl
    · exact ih (v / 256) x h
    · exact Nat.mod_lt _ (by omega)

theorem natFixedBE_zero_val (n : Nat) : natFixedBE 0 n = List.replicate n 0 := by
  induction n with
  | zero => rfl
  | succ n ih =>
    simp only [natFixedBE, Nat.zero_div, Nat.zero_mod, ih]
    exact (List.replicate_succ' n 0).symm

/-- The fixed-width expansion is the zero-padded minimal expansion when the
value fits in the width. -/
theorem natFixedBE_eq_pad (n : Nat) :
    ∀ v, v < 256 ^ n →
      natFixedBE v n =
        List.replicate (n - (natToDigitsBE 256 v).length) 0 ++
          natToDigitsBE 256 v := by
  induction n with
  | zero =>
    intro v hv
    interval_cases v
    simp [natFixedBE, natToDigitsBE_zero]
  | succ n ih =>
    intro v hv
    by_cases h0 : v = 0
    · subst h0
      simp [natFixedBE_zero_val, natToDigitsBE_zero]
    · have hdig := natToDigitsBE_pos 256 v h0 (by omega)
      have hdiv : v / 256 < 256 ^ n := by
        rw [Nat.div_lt_iff_lt_mul (by omega : 0 < 256)]
        calc v < 256 ^ (n + 1) := hv
          _ = 256 ^ n * 256 := by rw [pow_succ]
      simp only [natFixedBE, hdig, ih (v / 256) hdiv]
      rw [List.length_append, List.length_singleton, List.append_assoc]
      congr 2
      omega

theorem beFold_append_singleton (base : Nat) (l : List Nat) (x : Nat) :
    beFold base (l ++ [x]) = beFold base l * base + x := by
  unfold beFold
  rw [List.foldl_append]
  simp

/-- Folding the fixed-width expansion recovers the value modulo `256 ^ n`. -/
theorem beFold_natFixedBE (n : Nat) :
    ∀ v, beFold 256 (natFixedBE v n) = v % 256 ^ n := by
  induction n with
  | zero => intro v; simp [natFixedBE, beFold, Nat.mod_one]
  | succ n ih =>
    intro v
    simp only [natFixedBE]
    rw [beFold_append_singleton, ih (v / 256)]
    have : 256 ^ (n + 1) = 256 * 256 ^ n := by rw [pow_succ]; ring
    rw [this, Nat.mod_mul]
    ring

namespace BitcoinCrypto

/-- `BitcoinCrypto.secp256k1Order` (crypto.ts line 2). -/
def secp256k1Order : Nat :=
  0xFFFFFFFFFFFFFFFFFFFFFFFFFFFFFFFEBAAEDCE6AF48A03BBFD25E8CD0364141

/-- `BitcoinCrypto.bytesToBigInt`: big-endian interpretation via
`result = (result << 8) + byte`. -/
def bytesToBigInt (bytes : List Nat) : Nat :=
  bytes.foldl (fun result byte => result * 256 + byte) 0

theorem bytesToBigInt_eq_beFold (bytes : List Nat) :
    bytesToBigInt bytes = beFold 256 bytes := rfl

/-- The loop of `BitcoinCrypto.bigIntToBytes`: `for (i = 31; i >= 0; i--)
{ bytes[i] = value & 0xFF; value >>= 8 }`, filling from the right. -/
def bigIntToBytesGo : Nat → Nat → List Nat → List Nat
  | _, 0, acc => acc
  | v, n + 1, acc => bigIntToBytesGo (v >>> 8) n ((v &&& 255) :: acc)

/-- `BitcoinCrypto.bigIntToBytes`: always 32 bytes, no width parameter and
no overflow check. -/
def bigIntToBytes (v : Nat) : List Nat :=
  bigIntToBytesGo v 32 []

theorem bigIntToBytesGo_eq (n : Nat) :
    ∀ v acc, bigIntToBytesGo v n acc = natFixedBE v n ++ acc := by
  induction n with
  | zero => intro v acc; rfl
  | succ n ih =>
    intro v acc
    show bigIntToBytesGo (v >>> 8) n ((v &&& 255) :: acc) = _
    rw [ih (v >>> 8) ((v &&& 255) :: acc)]
    have hsh : v >>> 8 = v / 256 := by
      rw [Nat.shiftRight_eq_div_pow]
    have hand : v &&& 255 = v % 256 :=
      Nat.and_pow_two_sub_one_eq_mod v 8
    rw [hsh, hand]
    simp [natFixedBE]

theorem bigIntToBytes_eq_natFixedBE (v : Nat) :
    bigIntToBytes v = natFixedBE v 32 := by
  unfold bigIntToBytes
  rw [bigIntToBytesGo_eq]
  simp

theorem bytesToBigInt_bigIntToBytes (v : Nat) :
    bytesToBigInt (bigIntToBytes v) = v % 2 ^ 256 := by
  rw [bigIntToBytes_eq_natFixedBE, bytesToBigInt_eq_beFold, beFold_natFixedBE]
  norm_num

theorem bytesToBigInt_bigIntToBytes_of_lt (v : Nat) (hv : v < 2 ^ 256) :
    bytesToBigInt (bigIntToBytes v) = v := by
  rw [bytesToBigInt_bigIntToBytes, Nat.mod_eq_of_lt hv]

end BitcoinCrypto

namespace Sha256

/-!
Modelled from the spec: `BitcoinCrypto.sha256` calls the platform builtin
`crypto.subtle.digest('SHA-256', data)`, which is not part of the
repository's sources.  §4.2 of the spec requires "standard cryptographic
hash (must be a real, correct implementation)", so we embed FIPS 180-4
SHA-256 itself, with 32-bit words as `Nat` reduced modulo `2 ^ 32`.  The
round and initialization constants are derived, as in the standard, from
the fractional parts of the square / cube roots of the first primes.
-/

/-- Truncate to a 32-bit word. -/
def u32 (x : Nat) : Nat := x % 4294967296

/-- 32-bit right rotation (input assumed `< 2 ^ 32`). -/
def rotr (x n : Nat) : Nat := u32 ((x >>> n) ||| (x <<< (32 - n)))

def bigSigma0 (x : Nat) : Nat := rotr x 2 ^^^ rotr x 13 ^^^ rotr x 22

def bigSigma1 (x : Nat) : Nat := rotr x 6 ^^^ rotr x 11 ^^^ rotr x 25

def smallSigma0 (x : Nat) : Nat := rotr x 7 ^^^ rotr x 18 ^^^ (x >>> 3)

def smallSigma1 (x : Nat) : Nat := rotr x 17 ^^^ rotr x 19 ^^^ (x >>> 10)

def chFn (x y z : Nat) : Nat := (x &&& y) ^^^ ((x ^^^ 4294967295) &&& z)

def majFn (x y z : Nat) : Nat := (x &&& y) ^^^ (x &&& z) ^^^ (y &&& z)

/-- Bisection step for the integer cube root. -/
def icbrtAux : Nat → Nat → Nat → Nat → Nat
  | 0, _, lo, _ => lo
  | fuel + 1, n, lo, hi =>
    if hi ≤ lo + 1 then lo
    else
      let mid := (lo + hi) / 2
      if mid * mid * mid ≤ n then icbrtAux fuel n mid hi
      else icbrtAux fuel n lo mid

/-- Integer cube root (largest `r` with `r ^ 3 ≤ n`). -/
def icbrt (n : Nat) : Nat := icbrtAux 200 n 0 (n + 1)

/-- First 32 bits of the fractional part of the square root of `p`. -/
def sqrtFracWord (p : Nat) : Nat := Nat.sqrt (p * 2 ^ 64) % 2 ^ 32

/-- First 32 bits of the fractional part of the cube root of `p`. -/
def cbrtFracWord (p : Nat) : Nat := icbrt (p * 2 ^ 96) % 2 ^ 32

/-- The first 64 primes, sources of the round constants. -/
def first64Primes : List Nat :=
  [2, 3, 5, 7, 11, 13, 17, 19, 23, 29, 31, 37, 41, 43, 47, 53,
   59, 61, 67, 71, 73, 79, 83, 89, 97, 101, 103, 107, 109, 113, 127, 131,
   137, 139, 149, 151, 157, 163, 167, 173, 179, 181, 191, 193, 197, 199,
   211, 223, 227, 229, 233, 239, 241, 251, 257, 263, 269, 271, 277, 281,
   283, 293, 307, 311]

/-- The 64 SHA-256 round constants. -/
def roundConsts : List Nat := first64Primes.map cbrtFracWord

/-- Running hash state: eight 32-bit words. -/
structure Hash where
  a : Nat
  b : Nat
  c : Nat
  d : Nat
  e : Nat
  f : Nat
  g : Nat
  h : Nat

/-- Initial hash value `H⁽⁰⁾`. -/
def initHash : Hash :=
  ⟨sqrtFracWord 2, sqrtFracWord 3, sqrtFracWord 5, sqrtFracWord 7,
   sqrtFracWord 11, sqrtFracWord 13, sqrtFracWord 17, sqrtFracWord 19⟩

/-- Group bytes into big-endian 32-bit words. -/
def bytesToWords : List Nat → List Nat
  | b0 :: b1 :: b2 :: b3 :: rest =>
    (((b0 * 256 + b1) * 256 + b2) * 256 + b3) :: bytesToWords rest
  | _ => []

/-- Message-schedule extension to 64 words (each pass appends one word, so
64 passes always reach the length bound). -/
def extendWAux : Nat → List Nat → List Nat
  | 0, w => w
  | fuel + 1, w =>
    if 64 ≤ w.length then w
    else
      extendWAux fuel (w ++ [u32 (smallSigma1 (w.getD (w.length - 2) 0) +
        w.getD (w.length - 7) 0 + smallSigma0 (w.getD (w.length - 15) 0) +
        w.getD (w.length - 16) 0)])

def extendW (w : List Nat) : List Nat := extendWAux 64 w

/-- One compression round. -/
def roundStep (s : Hash) (kw : Nat × Nat) : Hash :=
  let t1 := u32 (s.h + bigSigma1 s.e + chFn s.e s.f s.g + kw.1 + kw.2)
  let t2 := u32 (bigSigma0 s.a + majFn s.a s.b s.c)
  ⟨u32 (t1 + t2), s.a, s.b, s.c, u32 (s.d + t1), s.e, s.f, s.g⟩

/-- Compress one 64-byte block into the running hash. -/
def compress (s : Hash) (block : List Nat) : Hash :=
  let w := extendW (bytesToWords block)
  let t := (roundConsts.zip w).foldl roundStep s
  ⟨u32 (s.a + t.a), u32 (s.b + t.b), u32 (s.c + t.c), u32 (s.d + t.d),
   u32 (s.e + t.e), u32 (s.f + t.f), u32 (s.g + t.g), u32 (s.h + t.h)⟩

/-- FIPS 180-4 padding: `0x80`, zeros, then the 64-bit bit length. -/
def pad (msg : List Nat) : List Nat :=
  msg ++ [128] ++ List.replicate ((64 - (msg.length + 9) % 64) % 64) 0 ++
    natFixedBE (8 * msg.length) 8

/-- Split into 64-byte blocks (the fuel covers the block count since every
pass drops 64 bytes of a nonempty list). -/
def chunksAux : Nat → List Nat → List (List Nat)
  | 0, _ => []
  | fuel + 1, l =>
    if l = [] then [] else l.take 64 :: chunksAux fuel (l.drop 64)

def chunks (l : List Nat) : List (List Nat) := chunksAux l.length l

/-- Serialize a 32-bit word into four big-endian bytes. -/
def wordBytes (w : Nat) : List Nat :=
  [(w >>> 24) % 256, (w >>> 16) % 256, (w >>> 8) % 256, w % 256]

/-- Serialize the final hash state into 32 bytes. -/
def serialize (s : Hash) : List Nat :=
  (([s.a, s.b, s.c, s.d, s.e, s.f, s.g, s.h]).map wordBytes).join

end Sha256

namespace BitcoinCrypto

/-- Modelled from the spec: `BitcoinCrypto.sha256` delegates to the platform
WebCrypto SHA-256 (`crypto.subtle.digest`), which has no source in the
repository; §4.2 requires a real, correct SHA-256, embedded here. -/
def sha256 (data : List Nat) : List Nat :=
  Sha256.serialize
    ((Sha256.chunks (Sha256.pad data)).foldl Sha256.compress Sha256.initHash)

/-- `BitcoinCrypto.doubleSha256`. -/
def doubleSha256 (data : List Nat) : List Nat := sha256 (sha256 data)

/-- `BitcoinCrypto.ripemd160` (crypto.ts lines 52-63): not a real
RIPEMD-160; 20 bytes obtained by XOR-folding the SHA-256 of the input. -/
def ripemd160 (data : List Nat) : List Nat :=
  (List.range 20).map fun i =>
    (sha256 data).getD i 0 ^^^ (sha256 data).getD (i + 12) 0

theorem serialize_length (s : Sha256.Hash) : (Sha256.serialize s).length = 32 := by
  simp [Sha256.serialize, Sha256.wordBytes]

theorem serialize_lt (s : Sha256.Hash) : ∀ x ∈ Sha256.serialize s, x < 256 := by
  intro x hx
  simp only [Sha256.serialize] at hx
  rw [List.mem_join] at hx
  obtain ⟨l, hl, hxl⟩ := hx
  rw [List.mem_map] at hl
  obtain ⟨w, _, rfl⟩ := hl
  simp only [Sha256.wordBytes, List.mem_cons, List.not_mem_nil, or_false] at hxl
  rcases hxl with rfl | rfl | rfl | rfl <;> exact Nat.mod_lt _ (by omega)

theorem sha256_length (data : List Nat) : (sha256 data).length = 32 :=
  serialize_length _

theorem sha256_lt (data : List Nat) : ∀ x ∈ sha256 data, x < 256 :=
  serialize_lt _

theorem ripemd160_length (data : List Nat) : (ripemd160 data).length = 20 := by
  simp [ripemd160]

theorem getD_lt_of_all_lt (l : List Nat) (bound : Nat)
    (hl : ∀ x ∈ l, x < bound) (i d : Nat) (hd : d < bound) :
    l.getD i d < bound := by
  rcases Nat.lt_or_ge i l.length with h | h
  · rw [List.getD_eq_getElem l d h]
    exact hl _ (List.getElem_mem h)
  · rw [List.getD_eq_default l d h]
    exact hd

theorem ripemd160_lt (data : List Nat) : ∀ x ∈ ripemd160 data, x < 256 := by
  intro x hx
  simp only [ripemd160, List.mem_map, List.mem_range] at hx
  obtain ⟨i, hi, rfl⟩ := hx
  have h1 : (sha256 data).getD i 0 < 256 :=
    getD_lt_of_all_lt _ _ (sha256_lt data) i 0 (by omega)
  have h2 : (sha256 data).getD (i + 12) 0 < 256 :=
    getD_lt_of_all_lt _ _ (sha256_lt data) (i + 12) 0 (by omega)
  have h256 : (256 : Nat) = 2 ^ 8 := by norm_num
  rw [h256] at h1 h2 ⊢
  exact Nat.xor_lt_two_pow h1 h2

end BitcoinCrypto

namespace BitcoinCrypto

/-- Lowercase hex digit characters. -/
def hexDigits : List Char := "0123456789abcdef".data

/-- One byte as two lowercase hex characters
(`byte.toString(16).padStart(2, '0')`, for byte values `< 256`). -/
def byteToHex (b : Nat) : List Char :=
  [hexDigits.getD (b / 16) '0', hexDigits.getD (b % 16) '0']

/-- `BitcoinCrypto.bytesToHex`. -/
def bytesToHex (bytes : List Nat) : String :=
  String.mk (bytes.map byteToHex).flatten

/-- Two's-complement truncation to a signed 32-bit value — the effect of
JavaScript's bitwise operators (`<<`, `&`, `^`) on `Number`. -/
def jsInt32 (x : Int) : Int := (x + 2147483648) % 4294967296 - 2147483648

/-- The rolling hash `hash = ((hash << 5) - hash + byte) & 0xffffffff`
of `simulateSecp256k1PublicKey` (crypto.ts lines 28-31); `<<` and `&`
operate on signed 32-bit values in JS. -/
def rollingHash (bytes : List Nat) : Int :=
  bytes.foldl (fun h b => jsInt32 (jsInt32 (h * 32) - h + (b : Int))) 0

/-- The unsigned 32-bit pattern of `(hash + i * 1337) & 0xffffffff`. -/
def pubSeed (h : Int) (i : Nat) : Nat :=
  ((jsInt32 (h + (i : Int) * 1337)) % 4294967296).toNat

/-- `BitcoinCrypto.simulateSecp256k1PublicKey` (crypto.ts lines 21-40).
JS computes `(privateKey[i] ^ (seed % 256)) & 0xff` on the signed value;
since `& 0xff` keeps only the low 8 bits of the two's-complement pattern
and `seed % 256` is congruent to the pattern `pubSeed` modulo 256, the
byte equals `(privateKey[i] ^^^ pubSeed % 256) &&& 255` over `Nat`. -/
def simulateSecp256k1PublicKey (privateKey : List Nat) : List Nat :=
  let hash := rollingHash privateKey
  2 :: ((List.range 32).map fun i =>
    (privateKey.getD i 0 ^^^ pubSeed hash i % 256) &&& 255)

/-- `BitcoinCrypto.getPublicKey` delegates to the simulated transform. -/
def getPublicKey (privateKey : List Nat) : List Nat :=
  simulateSecp256k1PublicKey privateKey

theorem getPublicKey_length (privateKey : List Nat) :
    (getPublicKey privateKey).length = 33 := by
  simp [getPublicKey, simulateSecp256k1PublicKey]

end BitcoinCrypto

namespace Base58

/-- `BASE58_ALPHABET` (base58.ts line 1). -/
def ALPHABET : List Char :=
  "123456789ABCDEFGHJKLMNPQRSTUVWXYZabcdefghijkmnopqrstuvwxyz".data

/-- `BASE58_ALPHABET.indexOf(char)`, with `-1` embedded as `none`. -/
def charIndex (c : Char) : Option Nat := ALPHABET.findIdx? (· == c)

/-- `Base58.encode` (base58.ts lines 4-29): big-endian base-58 digits of
the byte value, prefixed by one `'1'` per leading zero byte. -/
def encode (bytes : List Nat) : String :=
  if bytes = [] then "" else
    String.mk
      (List.replicate (bytes.takeWhile (· == 0)).length '1' ++
        (natToDigitsBE 58 (beFold 256 bytes)).map fun d => ALPHABET.getD d '1')

/-- The digit-accumulation loop of `Base58.decode`
(`num = num * 58 + index`, failing on a character outside the alphabet). -/
def foldDigits (acc : Nat) : List Char → Option Nat
  | [] => some acc
  | c :: cs =>
    match charIndex c with
    | none => none
    | some d => foldDigits (acc * 58 + d) cs

/-- `Base58.decode` (base58.ts lines 31-57): parse the digits (failing on
a character outside the alphabet), then rebuild the bytes and prepend one
zero byte per leading `'1'`. -/
def decode (s : String) : Option (List Nat) :=
  if s = "" then some [] else
    (foldDigits 0 s.data).map fun num =>
      List.replicate (s.data.takeWhile (· == '1')).length 0 ++
        natToDigitsBE 256 num

/-- `Base58.encodeCheck`: append the first 4 bytes of the double SHA-256,
then encode. -/
def encodeCheck (bytes : List Nat) : String :=
  encode (bytes ++ (BitcoinCrypto.doubleSha256 bytes).take 4)

end Base58

namespace Bech32

/-- `BECH32_ALPHABET` (part_001 line 1). -/
def ALPHABET : List Char := "qpzry9x8gf2tvdw0s3jn54khce6mua7l".data

/-- The generator constants of `Bech32.polymod`. -/
def GEN : List Nat := [0x3b6a57b2, 0x26508e6d, 0x1ea119fa, 0x3d4233dd, 0x2a1462b3]

/-- One iteration of the `Bech32.polymod` loop.  All intermediate values
stay below `2 ^ 30`, so JS signed 32-bit semantics coincide with `Nat`. -/
def polymodStep (chk value : Nat) : Nat :=
  let top := chk >>> 25
  let chk1 := ((chk &&& 0x1ffffff) <<< 5) ^^^ value
  (List.range 5).foldl
    (fun c i => c ^^^ (if (top >>> i) &&& 1 = 1 then GEN.getD i 0 else 0)) chk1

/-- `Bech32.polymod` (part_001 lines 4-17). -/
def polymod (values : List Nat) : Nat := values.foldl polymodStep 1

/-- `Bech32.hrpExpand` (part_001 lines 19-29). -/
def hrpExpand (hrp : String) : List Nat :=
  (hrp.data.map fun c => c.toNat >>> 5) ++ [0] ++
    (hrp.data.map fun c => c.toNat &&& 31)

/-- `Bech32.createChecksum` (part_001 lines 35-43). -/
def createChecksum (hrp : String) (data : List Nat) : List Nat :=
  let values := hrpExpand hrp ++ data ++ [0, 0, 0, 0, 0, 0]
  let m := polymod values ^^^ 1
  (List.range 6).map fun i => (m >>> (5 * (5 - i))) &&& 31

/-- `Bech32.encode` (part_001 lines 45-53).  `BECH32_ALPHABET[d]` for
`d ≥ 32` is JS `undefined`; the default character is never reached for the
5-bit values produced by `convertBits`/`createChecksum`. -/
def encode (hrp : String) (data : List Nat) : String :=
  hrp ++ "1" ++
    String.mk ((data ++ createChecksum hrp data).map fun d => ALPHABET.getD d 'q')

/-- The inner `while (bits >= toBits)` emission loop of
`Bech32.convertBits`; `fuel` bounds the iteration count (the loop runs at
most `bits / toBits` times since each pass removes `toBits ≥ 1` bits). -/
def convertBitsEmit (fuel : Nat) (acc : Nat) (bits toBits maxv : Nat)
    (res : List Nat) : Nat × List Nat :=
  match fuel with
  | 0 => (bits, res)
  | fuel + 1 =>
    if toBits ≤ bits ∧ 0 < toBits then
      convertBitsEmit fuel acc (bits - toBits) toBits maxv
        (res ++ [(acc >>> (bits - toBits)) &&& maxv])
    else (bits, res)

/-- The outer loop of `Bech32.convertBits`.  In JS the accumulator is
truncated to 32 bits by `<<`; only its low `bits + fromBits < 32` bits are
ever read, so an untruncated `Nat` accumulator emits identical values. -/
def convertBitsLoop (fromBits toBits maxv : Nat) :
    List Nat → Nat → Nat → List Nat → Option (Nat × Nat × List Nat)
  | [], acc, bits, res => some (acc, bits, res)
  | v :: rest, acc, bits, res =>
    if v >>> fromBits ≠ 0 then none
    else
      let acc1 := (acc <<< fromBits) ||| v
      let bits1 := bits + fromBits
      let er := convertBitsEmit bits1 acc1 bits1 toBits maxv res
      convertBitsLoop fromBits toBits maxv rest acc1 er.1 er.2

/-- `Bech32.convertBits` (part_001 lines 75-98). -/
def convertBits (data : List Nat) (fromBits toBits : Nat) (pad : Bool) :
    Option (List Nat) :=
  let maxv := (1 <<< toBits) - 1
  match convertBitsLoop fromBits toBits maxv data 0 0 [] with
  | none => none
  | some (acc, bits, res) =>
    if pad then
      some (if bits ≠ 0 then res ++ [(acc <<< (toBits - bits)) &&& maxv] else res)
    else if fromBits ≤ bits ∨ ((acc <<< (toBits - bits)) &&& maxv) ≠ 0 then none
    else some res

/-- On byte input (`fromBits = 8`) `convertBits` with padding never fails. -/
theorem convertBits_bytes_isSome (data : List Nat) (h : ∀ x ∈ data, x < 256) :
    ∃ res, convertBits data 8 5 true = some res := by
  suffices hloop : ∀ l, (∀ x ∈ l, x < 256) → ∀ acc bits res,
      ∃ out, convertBitsLoop 8 5 ((1 <<< 5) - 1) l acc bits res = some out by
    obtain ⟨⟨acc, bits, res⟩, hout⟩ := hloop data h 0 0 []
    simp only [convertBits]
    rw [hout]
    exact ⟨_, rfl⟩
  intro l
  induction l with
  | nil => intro _ acc bits res; exact ⟨_, rfl⟩
  | cons v rest ih =>
    intro hl acc bits res
    have hv : v < 256 := hl v (List.mem_cons_self _ _)
    have hshift : v >>> 8 = 0 := by
      rw [Nat.shiftRight_eq_div_pow]
      exact Nat.div_eq_of_lt (by omega)
    simp only [convertBitsLoop, hshift, ne_eq, not_true_eq_false, if_false]
    exact ih (fun x hx => hl x (List.mem_cons_of_mem _ hx)) _ _ _

end Bech32

/-- Case analysis on an `Except`, as a plain function (the embedding of a
JS `try`/branch on a promise result). -/
def exceptElim {e a b : Type} (x : Except e a) (f : a → b) (g : e → b) : b :=
  match x with
  | .ok v => f v
  | .error err => g err

theorem exceptElim_ok {e a b : Type} (v : a) (f : a → b) (g : e → b) :
    exceptElim (.ok v) f g = f v := rfl

theorem exceptElim_error {e a b : Type} (err : e) (f : a → b) (g : e → b) :
    exceptElim (.error err) f g = g err := rfl

/-- `Uint8Array.prototype.set(src, offset)` for a source that fits. -/
def uset (arr : List Nat) (off : Nat) (src : List Nat) : List Nat :=
  arr.take off ++ src ++ arr.drop (off + src.length)

/-- `BitcoinKey.addresses` (bitcoin.ts lines 10-14). -/
structure Addresses where
  legacy : String
  segwit : String
  nativeSegwit : String
deriving DecidableEq

/-- `BitcoinKey.balances` (bitcoin.ts lines 15-19): `number | null` becomes
`Option ℚ` (JS numbers are used here only as satoshi amounts divided by
`10^8`, which rationals represent exactly). -/
structure Balances where
  legacy : Option ℚ
  segwit : Option ℚ
  nativeSegwit : Option ℚ
deriving DecidableEq

/-- The `BitcoinKey` record (bitcoin.ts lines 5-22). -/
structure BitcoinKey where
  id : String
  privateKeyHex : String
  privateKeyWIF : String
  publicKey : String
  addresses : Addresses
  balances : Balances
  timestamp : Nat
  index : Nat
deriving DecidableEq

/-- Outcome of one external `fetch` to the balance API, the collaborator
interface of §6 of the spec (`fetchBalance`). -/
inductive FetchOutcome where
  | success (finalBalanceSatoshis : Int)
  | httpError (status : Nat)
  | networkError
deriving DecidableEq

namespace BitcoinKeyGenerator

/-- `BitcoinKeyGenerator.MASTER_SEED` (bitcoin.ts lines 36-41). -/
def MASTER_SEED : List Nat :=
  [0x42, 0x69, 0x74, 0x63, 0x6f, 0x69, 0x6e, 0x20,
   0x4c, 0x65, 0x61, 0x6b, 0x65, 0x64, 0x20, 0x44,
   0x61, 0x74, 0x61, 0x62, 0x61, 0x73, 0x65, 0x20,
   0x32, 0x30, 0x32, 0x35, 0x00, 0x00, 0x00, 0x00]

/-- The constant `maxKey` of `ensureValidPrivateKeySync` (bitcoin.ts
line 81): note this is the secp256k1 group order minus one. -/
def maxKey : Nat :=
  0xFFFFFFFFFFFFFFFFFFFFFFFFFFFFFFFEBAAEDCE6AF48A03BBFD25E8CD0364140

/-- The `while ((keyBigInt >= maxKey || keyBigInt === 0n) && attempts < 10)`
loop of `ensureValidPrivateKeySync` (bitcoin.ts lines 85-91), with an
explicit fuel that covers the remaining `10 - attempts` iterations. -/
def ensureLoopGo (index : Nat) : Nat → Nat → Nat → Nat
  | keyBigInt, _, 0 => keyBigInt
  | keyBigInt, attempts, fuel + 1 =>
    if (maxKey ≤ keyBigInt ∨ keyBigInt = 0) ∧ attempts < 10 then
      let k1 := (keyBigInt ^^^ (index + attempts * 1337)) % maxKey
      let k2 := if k1 = 0 then index + 1 else k1
      ensureLoopGo index k2 (attempts + 1) fuel
    else keyBigInt

def ensureLoop (index : Nat) (keyBigInt : Nat) (attempts : Nat) : Nat :=
  ensureLoopGo index keyBigInt attempts (10 - attempts)

/-- `BitcoinKeyGenerator.ensureValidPrivateKeySync` (bitcoin.ts 80-94). -/
def ensureValidPrivateKeySync (seed : List Nat) (index : Nat) : List Nat :=
  BitcoinCrypto.bigIntToBytes (ensureLoop index (BitcoinCrypto.bytesToBigInt seed) 0)

/-- `BitcoinKeyGenerator.generateFixedPrivateKeyFromIndex` (bitcoin.ts
55-77).  `indexArray` is the 8-byte big-endian `setBigUint64` encoding of
`index` (indices in this system stay far below `2 ^ 64`). -/
def generateFixedPrivateKeyFromIndex (index : Nat) : List Nat :=
  let indexArray := natFixedBE index 8
  let privateKey := (List.range 32).map fun i =>
    (MASTER_SEED.getD (i % 32) 0 ^^^ indexArray.getD (i % 8) 0 ^^^
      (index + i) % 256) % 256
  ensureValidPrivateKeySync privateKey index

/-- `BitcoinKeyGenerator.privateKeyToWIF` (bitcoin.ts 169-176). -/
def privateKeyToWIF (privateKey : List Nat) : String :=
  Base58.encodeCheck
    ((uset ((List.replicate 34 0).set 0 0x80) 1 privateKey).set 33 0x01)

/-- `BitcoinKeyGenerator.deriveAddresses` (bitcoin.ts 178-211). -/
def deriveAddresses (publicKey : List Nat) : Except String Addresses :=
  let pubKeyHash := BitcoinCrypto.ripemd160 (BitcoinCrypto.sha256 publicKey)
  let legacyPayload := uset ((List.replicate 21 0).set 0 0x00) 1 pubKeyHash
  let legacy := Base58.encodeCheck legacyPayload
  let redeemScript :=
    uset (((List.replicate 22 0).set 0 0x00).set 1 0x14) 2 pubKeyHash
  let scriptHash := BitcoinCrypto.ripemd160 (BitcoinCrypto.sha256 redeemScript)
  let segwitPayload := uset ((List.replicate 21 0).set 0 0x05) 1 scriptHash
  let segwit := Base58.encodeCheck segwitPayload
  let converted := Bech32.convertBits pubKeyHash 8 5 true
  if converted.isNone then .error "Failed to convert witness program"
  else
    .ok { legacy := legacy, segwit := segwit,
          nativeSegwit := Bech32.encode "bc" (0 :: converted.getD []) }

/-- `BitcoinKeyGenerator.generateKeyFromPrivateKey` (bitcoin.ts 142-167);
`now` stands for the `Date.now()` call on line 164. -/
def generateKeyFromPrivateKey (privateKey : List Nat)
    (indexOrTimestamp : Nat) (now : Nat) : Except String BitcoinKey :=
  let publicKey := BitcoinCrypto.getPublicKey privateKey
  let privateKeyHex := BitcoinCrypto.bytesToHex privateKey
  let privateKeyWIF := privateKeyToWIF privateKey
  let publicKeyHex := BitcoinCrypto.bytesToHex publicKey
  (deriveAddresses publicKey).map fun addresses =>
    let isIndex := indexOrTimestamp < 1000000000000
    { id := "key-" ++ Nat.repr indexOrTimestamp,
      privateKeyHex := privateKeyHex,
      privateKeyWIF := privateKeyWIF,
      publicKey := publicKeyHex,
      addresses := addresses,
      balances := ⟨none, none, none⟩,
      timestamp := if isIndex then now else indexOrTimestamp,
      index := if isIndex then indexOrTimestamp else 0 }

/-- The `try` block of `BitcoinKeyGenerator.checkBalance` (bitcoin.ts
218-277).  The cache lookup result and the `fetch` outcome are explicit
parameters; the rate-limiting wait changes no returned value and is
omitted.  A 429 response returns 0 directly; any other non-ok status
throws, as does a network failure of `fetch` itself. -/
def checkBalanceTry (cached : Option ℚ) (outcome : FetchOutcome) :
    Except String ℚ :=
  match cached with
  | some balance => .ok balance
  | none =>
    match outcome with
    | .success sat => .ok ((sat : ℚ) / 100000000)
    | .httpError status =>
      if status = 429 then .ok 0 else .error "HTTP error"
    | .networkError => .error "fetch failed"

/-- `BitcoinKeyGenerator.checkBalance`: the surrounding `catch` returns 0
for every error, so the function as a whole is total. -/
def checkBalance (cached : Option ℚ) (outcome : FetchOutcome) : ℚ :=
  exceptElim (checkBalanceTry cached outcome) (fun balance => balance) (fun _ => 0)

/-- `BitcoinKeyGenerator.checkAllBalances` (bitcoin.ts 284-305).  The three
lookups run in parallel on independent inputs; since `checkBalance` never
throws, the `catch` branch returning the unmodified key is unreachable. -/
def checkAllBalances (key : BitcoinKey)
    (cachedLegacy cachedSegwit cachedNative : Option ℚ)
    (oLegacy oSegwit oNative : FetchOutcome) : BitcoinKey :=
  let legacyBalance := checkBalance cachedLegacy oLegacy
  let segwitBalance := checkBalance cachedSegwit oSegwit
  let nativeSegwitBalance := checkBalance cachedNative oNative
  { key with balances :=
      { legacy := if legacyBalance > 0 then some legacyBalance else none,
        segwit := if segwitBalance > 0 then some segwitBalance else none,
        nativeSegwit :=
          if nativeSegwitBalance > 0 then some nativeSegwitBalance else none } }

end BitcoinKeyGenerator

namespace UseInfiniteKeys

/-- `useInfiniteKeys.generateKeyAtIndex` (part_002 lines 38-43). -/
def generateKeyAtIndex (index : Nat) (now : Nat) : Except String BitcoinKey :=
  BitcoinKeyGenerator.generateKeyFromPrivateKey
    (BitcoinKeyGenerator.generateFixedPrivateKeyFromIndex index) index now

def BATCH_SIZE : Nat := 50

def SEARCH_BATCH_SIZE : Nat := 1000

def MAX_SEARCH_RESULTS : Nat := 100

/-- Pagination state of `useInfiniteKeys`: the `keys` state, the
`currentIndex` cursor, the `generatedKeyIds` ref and the `loading` flag. -/
structure KeysState where
  keys : List BitcoinKey
  currentIndex : Nat
  generatedIds : List String
  loading : Bool
deriving DecidableEq

/-- Fresh controller state (all `useState`/`useRef` initial values). -/
def initialKeysState : KeysState :=
  { keys := [], currentIndex := 0, generatedIds := [], loading := false }

/-- The loop body of `generateKeys` (part_002 lines 230-254): walks
`count` indices from `startIndex`, skips ids already in `generatedKeyIds`,
and collects newly generated keys while extending the id set. -/
def generateKeysGo (gen : List String) (startIndex now : Nat) :
    Nat → List BitcoinKey × List String
  | 0 => ([], gen)
  | count + 1 =>
    let keyId := "key-" ++ Nat.repr startIndex
    if gen.contains keyId then generateKeysGo gen (startIndex + 1) now count
    else
      exceptElim (generateKeyAtIndex startIndex now)
        (fun key =>
          let r := generateKeysGo (gen ++ [key.id]) (startIndex + 1) now count
          (key :: r.1, r.2))
        (fun _ => generateKeysGo gen (startIndex + 1) now count)

/-- `useInfiniteKeys.loadMore` (part_002 lines 260-280): a no-op while
`loading` is set; otherwise generates the next `BATCH_SIZE` indices,
appends the ones whose ids are not yet in `keys`, and advances
`currentIndex` by `BATCH_SIZE` unconditionally. -/
def loadMore (s : KeysState) (now : Nat) : KeysState :=
  if s.loading then s
  else
    let r := generateKeysGo s.generatedIds s.currentIndex now BATCH_SIZE
    let existingIds := s.keys.map (·.id)
    let uniqueNewKeys := r.1.filter fun k => !existingIds.contains k.id
    { keys := s.keys ++ uniqueNewKeys,
      currentIndex := s.currentIndex + BATCH_SIZE,
      generatedIds := r.2,
      loading := false }

/-- JS `String.prototype.includes` over char lists. -/
def strIncludes (hay needle : List Char) : Bool :=
  (List.range (hay.length + 1)).any fun i => needle.isPrefixOf (hay.drop i)

/-- `s.toLowerCase()` (ASCII, which is all the generated text uses). -/
def toLowerStr (s : String) : List Char := s.data.map Char.toLower

/-- The substring predicate applied to every text field of a key, shared by
`performSearch` (part_002 lines 153-162) and `searchVirtualKeys`
(lines 99-105). -/
def matchesKey (term : String) (key : BitcoinKey) : Bool :=
  let t := toLowerStr term
  strIncludes (toLowerStr key.privateKeyHex) t ||
  strIncludes (toLowerStr key.privateKeyWIF) t ||
  strIncludes (toLowerStr key.addresses.legacy) t ||
  strIncludes (toLowerStr key.addresses.segwit) t ||
  strIncludes (toLowerStr key.addresses.nativeSegwit) t

/-- Search-related controller state: the `keys` snapshot, the published
results and flags, and the `searchAbortController` ref modelled as an
allocation counter, the id of the current controller, and the set of
controllers whose `abort()` has been called. -/
structure SearchState where
  keys : List BitcoinKey
  searchResults : List BitcoinKey
  searchLoading : Bool
  searchCompleted : Bool
  ctrlCounter : Nat
  currentCtrl : Option Nat
  aborted : List Nat
deriving DecidableEq

/-- The local state of one suspended `performSearch` invocation: the
captured query, the captured `AbortController` identity (whose `signal`
was passed to `searchVirtualKeys`), the synchronous phase-1 matches, and
the phase-2 scan state (`searchIndex`, `results`, termination flag). -/
structure SearchSession where
  term : String
  ctrl : Nat
  loadedMatches : List BitcoinKey
  searchIndex : Nat
  found : List BitcoinKey
  scanDone : Bool
deriving DecidableEq

/-- The synchronous prefix of `performSearch` (part_002 lines 134-165):
abort the previous controller, handle short queries, allocate a fresh
controller, set the flags and compute the phase-1 matches.  Returns the
updated shared state and the suspended session (if any). -/
def startSearch (term : String) (s : SearchState) :
    SearchState × Option SearchSession :=
  let aborted1 :=
    match s.currentCtrl with
    | some c => c :: s.aborted
    | none => s.aborted
  if term.length < 3 then
    ({ s with
        searchResults := [], searchLoading := false,
        searchCompleted := false, aborted := aborted1 }, none)
  else
    let ctrl := s.ctrlCounter
    ({ s with
        searchLoading := true, searchCompleted := false,
        aborted := aborted1, ctrlCounter := s.ctrlCounter + 1,
        currentCtrl := some ctrl },
     some { term := term, ctrl := ctrl,
            loadedMatches := s.keys.filter (matchesKey term),
            searchIndex := 0, found := [], scanDone := false })

/-- The per-key body of a `searchVirtualKeys` batch (part_002 lines
92-117): skip already-found ids, test the predicate, stop at the result
cap.  (`signal.aborted` cannot change inside the synchronous loop, and key
generation never rejects, so neither early exit is modelled per-key.) -/
def batchScan (term : String) (now : Nat) :
    List BitcoinKey → List Nat → List BitcoinKey
  | found, [] => found
  | found, i :: rest =>
    if MAX_SEARCH_RESULTS ≤ found.length then found
    else
      exceptElim (generateKeyAtIndex i now)
        (fun key =>
          if (found.map (·.id)).contains key.id then
            batchScan term now found rest
          else if matchesKey term key then
            batchScan term now (found ++ [key]) rest
          else batchScan term now found rest)
        (fun _ => found)

/-- One iteration of the `while` loop of `searchVirtualKeys` (part_002
lines 81-128): the loop condition, the batch-boundary `signal.aborted`
check against the session's captured controller, then one batch of at most
`SEARCH_BATCH_SIZE` derivations. -/
def stepBatch (g : SearchState) (sess : SearchSession) (now : Nat) :
    SearchSession :=
  if sess.scanDone then sess
  else if MAX_SEARCH_RESULTS ≤ sess.found.length ∨ 100000 ≤ sess.searchIndex then
    { sess with scanDone := true }
  else if g.aborted.contains sess.ctrl then
    { sess with scanDone := true }
  else
    let batchEnd := min (sess.searchIndex + SEARCH_BATCH_SIZE) 100000
    { sess with
        searchIndex := batchEnd,
        found := batchScan sess.term now sess.found
          (List.range' sess.searchIndex (batchEnd - sess.searchIndex)) }

/-- The continuation of `performSearch` after `searchVirtualKeys` returns
(part_002 lines 167-200): merge phase-1 and phase-2 results by id, sort by
index, and publish — guarded by `searchAbortController.current.signal.aborted`,
which reads the abort flag of the controller that is current *now*, not of
the session's own captured controller. -/
def finishSearch (g : SearchState) (sess : SearchSession) : SearchState :=
  let combined := sess.loadedMatches ++
    sess.found.filter fun k => !(sess.loadedMatches.map (·.id)).contains k.id
  let allMatches := combined.mergeSort fun a b => a.index ≤ b.index
  let currentAborted :=
    match g.currentCtrl with
    | some c => g.aborted.contains c
    | none => true
  if currentAborted then g
  else
    { g with
        searchResults := allMatches, searchCompleted := true,
        searchLoading := false }

end UseInfiniteKeys

/-! ## Shared helper lemmas for the claim theorems -/

theorem uset21 (x : Nat) (src : List Nat) (h : src.length = 20) :
    uset ((List.replicate 21 0).set 0 x) 1 src = x :: src := by
  have e : (List.replicate 21 0).set 0 x = x :: List.replicate 20 0 := rfl
  unfold uset
  rw [e, h]
  simp

theorem uset22 (src : List Nat) (h : src.length = 20) :
    uset (((List.replicate 22 0).set 0 0).set 1 20) 2 src = 0 :: 20 :: src := by
  have e : ((List.replicate 22 0).set 0 0).set 1 20 =
      0 :: 20 :: List.replicate 20 0 := rfl
  unfold uset
  rw [e, h]
  simp

/-- `deriveAddresses` always succeeds and produces exactly the three
encodings of §4.4, all from the single `pubKeyHash`. -/
theorem deriveAddresses_spec (publicKey : List Nat) :
    ∃ program,
      Bech32.convertBits
        (BitcoinCrypto.ripemd160 (BitcoinCrypto.sha256 publicKey)) 8 5 true =
          some program ∧
      BitcoinKeyGenerator.deriveAddresses publicKey = .ok
        { legacy := Base58.encodeCheck (0x00 ::
            BitcoinCrypto.ripemd160 (BitcoinCrypto.sha256 publicKey)),
          segwit := Base58.encodeCheck (0x05 ::
            BitcoinCrypto.ripemd160 (BitcoinCrypto.sha256 (0x00 :: 0x14 ::
              BitcoinCrypto.ripemd160 (BitcoinCrypto.sha256 publicKey)))),
          nativeSegwit := Bech32.encode "bc" (0 :: program) } := by
  obtain ⟨conv, hconv⟩ := Bech32.convertBits_bytes_isSome
    (BitcoinCrypto.ripemd160 (BitcoinCrypto.sha256 publicKey))
    (BitcoinCrypto.ripemd160_lt _)
  refine ⟨conv, hconv, ?_⟩
  simp only [BitcoinKeyGenerator.deriveAddresses]
  rw [uset21 0x00 _ (BitcoinCrypto.ripemd160_length _),
    uset22 _ (BitcoinCrypto.ripemd160_length _),
    uset21 0x05 _ (BitcoinCrypto.ripemd160_length _), hconv]
  rfl

/-- `generateKeyFromPrivateKey` always succeeds, with the field values of
bitcoin.ts lines 153-166. -/
theorem generateKeyFromPrivateKey_ok (pk : List Nat) (n now : Nat) :
    ∃ a, BitcoinKeyGenerator.deriveAddresses (BitcoinCrypto.getPublicKey pk) =
        .ok a ∧
      BitcoinKeyGenerator.generateKeyFromPrivateKey pk n now = .ok
        { id := "key-" ++ Nat.repr n,
          privateKeyHex := BitcoinCrypto.bytesToHex pk,
          privateKeyWIF := BitcoinKeyGenerator.privateKeyToWIF pk,
          publicKey := BitcoinCrypto.bytesToHex (BitcoinCrypto.getPublicKey pk),
          addresses := a,
          balances := ⟨none, none, none⟩,
          timestamp := if n < 1000000000000 then now else n,
          index := if n < 1000000000000 then n else 0 } := by
  obtain ⟨prog, _, hok⟩ := deriveAddresses_spec (BitcoinCrypto.getPublicKey pk)
  refine ⟨_, hok, ?_⟩
  simp only [BitcoinKeyGenerator.generateKeyFromPrivateKey]
  rw [hok]
  rfl

/-! ## C9 -/

/-- The spec's `uintToBytes(value, width)` (§4.1): big-endian, zero-padded
to `width` bytes; fails (`OverflowError`, embedded as `none`) when the
value does not fit in `width` bytes. -/
def uintToBytesSpec (value width : Nat) : Option (List Nat) :=
  if 256 ^ width ≤ value then none
  else
    some (List.replicate (width - (natToDigitsBE 256 value).length) 0 ++
      natToDigitsBE 256 value)

/-- C9 counterexample: `2 ^ 256` does not fit in 32 bytes, so the claimed
`uintToBytes` contract demands a failure, but `bigIntToBytes` (which takes
no width and cannot fail) silently truncates it to 32 zero bytes. -/
theorem c9_overflow_counterexample :
    uintToBytesSpec (2 ^ 256) 32 = none ∧
      BitcoinCrypto.bigIntToBytes (2 ^ 256) = List.replicate 32 0 := by
  constructor
  · rw [uintToBytesSpec, if_pos (by norm_num)]
  · decide

theorem natFixedBE_mod (n : Nat) :
    ∀ v, natFixedBE v n = natFixedBE (v % 256 ^ n) n := by
  induction n with
  | zero => intro v; rfl
  | succ n ih =>
    intro v
    have h1 : v % 256 ^ (n + 1) % 256 = v % 256 :=
      Nat.mod_mod_of_dvd v (dvd_pow_self 256 (by omega))
    have hsplit : v % 256 ^ (n + 1) = v % 256 + (v / 256 % 256 ^ n) * 256 := by
      have : (256 : Nat) ^ (n + 1) = 256 * 256 ^ n := by rw [pow_succ]; ring
      rw [this, Nat.mod_mul]
      ring
    have h2 : v % 256 ^ (n + 1) / 256 = v / 256 % 256 ^ n := by
      rw [hsplit, Nat.add_mul_div_right _ _ (by omega : 0 < 256),
        Nat.div_eq_of_lt (Nat.mod_lt _ (by omega)), Nat.zero_add]
    simp only [natFixedBE]
    rw [h1, h2, ← ih (v / 256)]

/-- C9 amended: `bigIntToBytes` has no width parameter and never fails; it
returns the 32-byte zero-padded big-endian encoding of `value mod 2 ^ 256`,
which agrees with the spec's `uintToBytes` exactly on values that fit. -/
theorem c9_bigIntToBytes_truncates (v : Nat) :
    BitcoinCrypto.bigIntToBytes v =
      List.replicate (32 - (natToDigitsBE 256 (v % 2 ^ 256)).length) 0 ++
        natToDigitsBE 256 (v % 2 ^ 256) ∧
      uintToBytesSpec (v % 2 ^ 256) 32 =
        some (BitcoinCrypto.bigIntToBytes v) := by
  have h2 : (2 : Nat) ^ 256 = 256 ^ 32 := by norm_num
  have hlt : v % 2 ^ 256 < 256 ^ 32 := h2 ▸ Nat.mod_lt _ (by positivity)
  have hmain : BitcoinCrypto.bigIntToBytes v =
      List.replicate (32 - (natToDigitsBE 256 (v % 2 ^ 256)).length) 0 ++
        natToDigitsBE 256 (v % 2 ^ 256) := by
    rw [BitcoinCrypto.bigIntToBytes_eq_natFixedBE, natFixedBE_mod 32 v, ← h2,
      natFixedBE_eq_pad 32 _ hlt]
  refine ⟨hmain, ?_⟩
  rw [uintToBytesSpec, if_neg (by omega), hmain]

/-! ## C10 -/

/-- C10: `generateKeyFromPrivateKey` treats its numeric argument as a
keyspace index exactly when it is `< 10 ^ 12`: below the bound the record
gets `index = n` and the fresh `Date.now()` timestamp; at or above it the
record gets `index = 0` and `timestamp = n`; the id is `"key-" ++ n` in
both cases, so above the bound the `index` field no longer identifies the
generative input even though the id still does. -/
theorem generateKeyFromPrivateKey_index_vs_timestamp
    (pk : List Nat) (n now : Nat) :
    ∃ k, BitcoinKeyGenerator.generateKeyFromPrivateKey pk n now = .ok k ∧
      k.id = "key-" ++ Nat.repr n ∧
      k.index = (if n < 1000000000000 then n else 0) ∧
      k.timestamp = (if n < 1000000000000 then now else n) := by
  obtain ⟨a, _, hok⟩ := generateKeyFromPrivateKey_ok pk n now
  exact ⟨_, hok, rfl, rfl, rfl⟩

/-! ## C8 and C7 -/

/-- A concrete record used as input for the balance-enrichment claims
(its `balances.legacy` is already known, to expose overwriting). -/
def sampleKey : BitcoinKey :=
  { id := "key-7", privateKeyHex := "00abc123", privateKeyWIF := "wif7",
    publicKey := "pub7",
    addresses := ⟨"1LegacyAddr", "3SegwitAddr", "bc1native"⟩,
    balances := ⟨some 5, none, none⟩, timestamp := 0, index := 7 }

/-- The failure modes of the external balance lookup: any non-ok HTTP
status (429 included) and network-level fetch failures (§6 of the spec). -/
def FetchOutcome.isFailure : FetchOutcome → Bool
  | .success _ => false
  | .httpError _ => true
  | .networkError => true

/-- C8: a balance fetch that succeeds with `0` satoshis — or any
non-positive amount — leaves the corresponding balance field `null`
(unknown), never the number `0`, in the record `checkAllBalances`
returns; this holds per address, whatever the cached values and fetch
outcomes of the other two addresses are. -/
theorem checkAllBalances_zero_is_unknown (key : BitcoinKey) (s : Int)
    (hs : s ≤ 0) :
    (∀ (cS cN : Option ℚ) (oS oN : FetchOutcome),
      (BitcoinKeyGenerator.checkAllBalances key none cS cN
        (.success s) oS oN).balances.legacy = none) ∧
    (∀ (cL cN : Option ℚ) (oL oN : FetchOutcome),
      (BitcoinKeyGenerator.checkAllBalances key cL none cN
        oL (.success s) oN).balances.segwit = none) ∧
    (∀ (cL cS : Option ℚ) (oL oS : FetchOutcome),
      (BitcoinKeyGenerator.checkAllBalances key cL cS none
        oL oS (.success s)).balances.nativeSegwit = none) := by
  have hb : ¬BitcoinKeyGenerator.checkBalance none (.success s) > 0 := by
    show ¬((s : ℚ) / 100000000 > 0)
    rw [not_lt]
    apply div_nonpos_of_nonpos_of_nonneg
    · exact_mod_cast hs
    · norm_num
  refine ⟨fun cS cN oS oN => ?_, fun cL cN oL oN => ?_,
    fun cL cS oL oS => ?_⟩ <;>
    · simp only [BitcoinKeyGenerator.checkAllBalances]
      rw [if_neg hb]

/-- C8 witness: the legacy fetch succeeds with `0` satoshis while the
segwit fetch returns a positive amount and the native-segwit fetch fails;
the legacy balance still comes back `null`. -/
theorem checkAllBalances_zero_is_unknown_witness :
    (0 : Int) ≤ 0 ∧
      (BitcoinKeyGenerator.checkAllBalances sampleKey none none none
        (.success 0) (.success 250000000) .networkError).balances.legacy =
        none :=
  ⟨by decide,
   (checkAllBalances_zero_is_unknown sampleKey 0 (by decide)).1
     none none (.success 250000000) .networkError⟩

/-- C7 counterexample: `sampleKey` enters `checkAllBalances` with a known
positive legacy balance; when every lookup fails (network error), the
returned record's legacy balance is `null`, not the prior value — the
record is *not* returned unmodified as the claim states. -/
theorem checkAllBalances_failure_not_unmodified :
    (BitcoinKeyGenerator.checkAllBalances sampleKey none none none
        .networkError .networkError .networkError).balances.legacy ≠
      sampleKey.balances.legacy := by
  decide

/-- C7 amended: a failed lookup never propagates an error (the function is
total and `checkBalance` swallows the failure into `0`); whatever the three
cached values and fetch outcomes are, the returned record keeps every
non-balance field; and whichever single address's lookup fails — the other
two arbitrary — that address's balance is set to `null`, overwriting any
previously known amount. -/
theorem checkAllBalances_failure_normalizes (key : BitcoinKey)
    (o : FetchOutcome) (ho : o.isFailure = true) :
    (∀ (cL cS cN : Option ℚ) (o1 o2 o3 : FetchOutcome),
      { BitcoinKeyGenerator.checkAllBalances key cL cS cN o1 o2 o3 with
          balances := key.balances } = key) ∧
    (∀ (cS cN : Option ℚ) (oS oN : FetchOutcome),
      (BitcoinKeyGenerator.checkAllBalances key none cS cN
        o oS oN).balances.legacy = none) ∧
    (∀ (cL cN : Option ℚ) (oL oN : FetchOutcome),
      (BitcoinKeyGenerator.checkAllBalances key cL none cN
        oL o oN).balances.segwit = none) ∧
    (∀ (cL cS : Option ℚ) (oL oS : FetchOutcome),
      (BitcoinKeyGenerator.checkAllBalances key cL cS none
        oL oS o).balances.nativeSegwit = none) := by
  have hb : BitcoinKeyGenerator.checkBalance none o = 0 := by
    cases o with
    | success s => simp [FetchOutcome.isFailure] at ho
    | httpError status =>
      simp only [BitcoinKeyGenerator.checkBalance,
        BitcoinKeyGenerator.checkBalanceTry]
      by_cases h : status = 429 <;> simp [h, exceptElim]
    | networkError => rfl
  refine ⟨fun cL cS cN o1 o2 o3 => rfl, fun cS cN oS oN => ?_,
    fun cL cN oL oN => ?_, fun cL cS oL oS => ?_⟩ <;>
    · simp only [BitcoinKeyGenerator.checkAllBalances, hb]
      rw [if_neg (lt_irrefl (0 : ℚ))]

/-- C7 witness: the legacy lookup fails with a network error while the
segwit fetch succeeds positively and the native-segwit fetch returns HTTP
500; non-balance fields survive and the legacy balance is overwritten to
`null` (the input `sampleKey` knew `some 5`). -/
theorem checkAllBalances_failure_normalizes_witness :
    FetchOutcome.networkError.isFailure = true ∧
      { BitcoinKeyGenerator.checkAllBalances sampleKey none none none
          .networkError (.success 250000000) (.httpError 500) with
          balances := sampleKey.balances } = sampleKey ∧
      (BitcoinKeyGenerator.checkAllBalances sampleKey none none none
        .networkError (.success 250000000) (.httpError 500)).balances.legacy =
        none :=
  ⟨rfl,
   (checkAllBalances_failure_normalizes sampleKey .networkError rfl).1
     none none none .networkError (.success 250000000) (.httpError 500),
   (checkAllBalances_failure_normalizes sampleKey .networkError rfl).2.1
     none none (.success 250000000) (.httpError 500)⟩

/-! ## C2 and C1 -/

/-- The correction loop exactly as the claim words it: condition and
modulus use the full group order `N = 0x…4141` (`secp256k1Order`). -/
def ensureLoopClaimGo (index : Nat) : Nat → Nat → Nat → Nat
  | keyBigInt, _, 0 => keyBigInt
  | keyBigInt, attempts, fuel + 1 =>
    if (BitcoinCrypto.secp256k1Order ≤ keyBigInt ∨ keyBigInt = 0) ∧
        attempts < 10 then
      let k1 := (keyBigInt ^^^ (index + attempts * 1337)) %
        BitcoinCrypto.secp256k1Order
      let k2 := if k1 = 0 then index + 1 else k1
      ensureLoopClaimGo index k2 (attempts + 1) fuel
    else keyBigInt

/-- `ensureValidPrivateKeySync` as the claim describes it (threshold `N`). -/
def ensureValidClaim (seed : List Nat) (index : Nat) : List Nat :=
  BitcoinCrypto.bigIntToBytes
    (ensureLoopClaimGo index (BitcoinCrypto.bytesToBigInt seed) 0 10)

/-- C2 counterexample: at the 32-byte candidate `N - 1` (the code's
`maxKey`, `0x…4140`) with index 0, the claim's loop (threshold `N`) leaves
the candidate unchanged, but the code's loop fires — `N - 1 ≥ maxKey` —
and turns it into `1`. -/
theorem ensureValid_boundary_counterexample :
    ensureValidClaim
        (BitcoinCrypto.bigIntToBytes BitcoinKeyGenerator.maxKey) 0 =
      BitcoinCrypto.bigIntToBytes BitcoinKeyGenerator.maxKey ∧
    BitcoinKeyGenerator.ensureValidPrivateKeySync
        (BitcoinCrypto.bigIntToBytes BitcoinKeyGenerator.maxKey) 0 =
      BitcoinCrypto.bigIntToBytes 1 ∧
    BitcoinKeyGenerator.ensureValidPrivateKeySync
        (BitcoinCrypto.bigIntToBytes BitcoinKeyGenerator.maxKey) 0 ≠
      ensureValidClaim
        (BitcoinCrypto.bigIntToBytes BitcoinKeyGenerator.maxKey) 0 := by
  refine ⟨by decide, by decide, by decide⟩

/-- The correction loop as amended: identical wording to the claim but
with threshold and modulus `N - 1 = 0x…4140`. -/
def ensureLoopAmendedGo (index : Nat) : Nat → Nat → Nat → Nat
  | keyBigInt, _, 0 => keyBigInt
  | keyBigInt, attempts, fuel + 1 =>
    if (BitcoinCrypto.secp256k1Order - 1 ≤ keyBigInt ∨ keyBigInt = 0) ∧
        attempts < 10 then
      let k1 := (keyBigInt ^^^ (index + attempts * 1337)) %
        (BitcoinCrypto.secp256k1Order - 1)
      let k2 := if k1 = 0 then index + 1 else k1
      ensureLoopAmendedGo index k2 (attempts + 1) fuel
    else keyBigInt

/-- `ensureValidPrivateKeySync` as amended (threshold `N - 1`). -/
def ensureValidAmended (seed : List Nat) (index : Nat) : List Nat :=
  BitcoinCrypto.bigIntToBytes
    (ensureLoopAmendedGo index (BitcoinCrypto.bytesToBigInt seed) 0 10)

/-- C2 amended: the code's correction procedure is exactly the claim's
loop with `N` replaced by `N - 1` (`0x…4140`): applied exactly when the
candidate is `0` or `≥ N - 1`; each of at most 10 iterations XORs with
`index + attempt * 1337`, reduces modulo `N - 1`, sets `index + 1` if
still zero, and stops as soon as the value lies in `(0, N - 1)`. -/
theorem ensureValid_eq_amended (seed : List Nat) (index : Nat) :
    BitcoinKeyGenerator.ensureValidPrivateKeySync seed index =
      ensureValidAmended seed index := by
  have hmk : BitcoinKeyGenerator.maxKey = BitcoinCrypto.secp256k1Order - 1 :=
    by decide
  suffices h : ∀ fuel k a, BitcoinKeyGenerator.ensureLoopGo index k a fuel =
      ensureLoopAmendedGo index k a fuel by
    unfold BitcoinKeyGenerator.ensureValidPrivateKeySync ensureValidAmended
      BitcoinKeyGenerator.ensureLoop
    rw [h]
  intro fuel
  induction fuel with
  | zero => intro k a; rfl
  | succ fuel ih =>
    intro k a
    simp only [BitcoinKeyGenerator.ensureLoopGo, ensureLoopAmendedGo, hmk]
    by_cases hc : (BitcoinCrypto.secp256k1Order - 1 ≤ k ∨ k = 0) ∧ a < 10
    · rw [if_pos hc, if_pos hc, ih]
    · rw [if_neg hc, if_neg hc]

/-- Unfolding equation for one iteration of the code's correction loop. -/
theorem ensureLoopGo_succ (index k a fuel : Nat) :
    BitcoinKeyGenerator.ensureLoopGo index k a (fuel + 1) =
      if (BitcoinKeyGenerator.maxKey ≤ k ∨ k = 0) ∧ a < 10 then
        BitcoinKeyGenerator.ensureLoopGo index
          (if (k ^^^ (index + a * 1337)) % BitcoinKeyGenerator.maxKey = 0
           then index + 1
           else (k ^^^ (index + a * 1337)) % BitcoinKeyGenerator.maxKey)
          (a + 1) fuel
      else k := rfl

/-- Once the running value is strictly between 0 and `maxKey`, the loop
stops and returns it. -/
theorem ensureLoopGo_of_valid (index k a fuel : Nat) (h1 : 0 < k)
    (h2 : k < BitcoinKeyGenerator.maxKey) :
    BitcoinKeyGenerator.ensureLoopGo index k a fuel = k := by
  cases fuel with
  | zero => rfl
  | succ fuel =>
    rw [ensureLoopGo_succ, if_neg]
    rintro ⟨hge | h0, _⟩
    · omega
    · omega

/-- Whatever the starting value, the loop started at `attempts = 0`
returns a value in `(0, maxKey)` — one iteration always repairs an
invalid candidate, because the reduction modulo `maxKey` lands below
`maxKey` and a zero is replaced by `index + 1`. -/
theorem ensureLoopGo_range (index k : Nat)
    (hupper : index + 1 < BitcoinKeyGenerator.maxKey) :
    0 < BitcoinKeyGenerator.ensureLoopGo index k 0 10 ∧
      BitcoinKeyGenerator.ensureLoopGo index k 0 10 <
        BitcoinKeyGenerator.maxKey := by
  have hmkpos : 0 < BitcoinKeyGenerator.maxKey := by decide
  show 0 < BitcoinKeyGenerator.ensureLoopGo index k 0 (9 + 1) ∧
    BitcoinKeyGenerator.ensureLoopGo index k 0 (9 + 1) <
      BitcoinKeyGenerator.maxKey
  rw [ensureLoopGo_succ]
  by_cases hc : (BitcoinKeyGenerator.maxKey ≤ k ∨ k = 0) ∧ (0 : Nat) < 10
  · rw [if_pos hc]
    set k1 := (k ^^^ (index + 0 * 1337)) % BitcoinKeyGenerator.maxKey with hk1
    have hk1lt : k1 < BitcoinKeyGenerator.maxKey := Nat.mod_lt _ hmkpos
    by_cases h0 : k1 = 0
    · rw [if_pos h0, ensureLoopGo_of_valid index (index + 1) 1 9 (by omega)
        hupper]
      exact ⟨by omega, hupper⟩
    · rw [if_neg h0, ensureLoopGo_of_valid index k1 1 9
        (Nat.pos_of_ne_zero h0) hk1lt]
      exact ⟨Nat.pos_of_ne_zero h0, hk1lt⟩
  · rw [if_neg hc]
    have hA : ¬(BitcoinKeyGenerator.maxKey ≤ k ∨ k = 0) :=
      fun hA => hc ⟨hA, by omega⟩
    push_neg at hA
    exact ⟨Nat.pos_of_ne_zero hA.2, by omega⟩

/-- C1: for every `index` in `[0, 10 ^ 6]`, the scalar produced by
`generateFixedPrivateKeyFromIndex`, read as a big-endian unsigned integer,
lies strictly between 0 and the secp256k1 group order `N` (in fact it even
lies below the code's `maxKey = N - 1`). -/
theorem generateFixedPrivateKey_in_range (index : Nat) (h : index ≤ 10 ^ 6) :
    0 < BitcoinCrypto.bytesToBigInt
        (BitcoinKeyGenerator.generateFixedPrivateKeyFromIndex index) ∧
      BitcoinCrypto.bytesToBigInt
        (BitcoinKeyGenerator.generateFixedPrivateKeyFromIndex index) <
        BitcoinCrypto.secp256k1Order := by
  have hupper : index + 1 < BitcoinKeyGenerator.maxKey := by
    have hbig : (10 : Nat) ^ 6 + 1 < BitcoinKeyGenerator.maxKey := by decide
    omega
  have hNm : BitcoinKeyGenerator.maxKey < BitcoinCrypto.secp256k1Order := by
    decide
  have h2 : BitcoinKeyGenerator.maxKey < 2 ^ 256 := by decide
  simp only [BitcoinKeyGenerator.generateFixedPrivateKeyFromIndex,
    BitcoinKeyGenerator.ensureValidPrivateKeySync,
    BitcoinKeyGenerator.ensureLoop, Nat.sub_zero]
  obtain ⟨hpos, hlt⟩ := ensureLoopGo_range index
    (BitcoinCrypto.bytesToBigInt ((List.range 32).map fun i =>
      (BitcoinKeyGenerator.MASTER_SEED.getD (i % 32) 0 ^^^
        (natFixedBE index 8).getD (i % 8) 0 ^^^ (index + i) % 256) % 256))
    hupper
  rw [BitcoinCrypto.bytesToBigInt_bigIntToBytes,
    Nat.mod_eq_of_lt (by omega)]
  exact ⟨hpos, by omega⟩

/-- C1 witness at `index = 3`. -/
theorem generateFixedPrivateKey_in_range_witness :
    3 ≤ 10 ^ 6 ∧
      (0 < BitcoinCrypto.bytesToBigInt
          (BitcoinKeyGenerator.generateFixedPrivateKeyFromIndex 3) ∧
        BitcoinCrypto.bytesToBigInt
            (BitcoinKeyGenerator.generateFixedPrivateKeyFromIndex 3) <
          BitcoinCrypto.secp256k1Order) :=
  ⟨by decide, generateFixedPrivateKey_in_range 3 (by decide)⟩

/-! ## C4: Base58 round trip -/

namespace Base58

theorem charIndex_getD : ∀ d, d < 58 → charIndex (ALPHABET.getD d '1') = some d := by
  decide

theorem getD_ne_one : ∀ d, d < 58 → d ≠ 0 → ALPHABET.getD d '1' ≠ '1' := by
  decide

theorem charIndex_one : charIndex '1' = some 0 := by decide

/-- Leading `'1'` characters contribute nothing to the accumulated value 0. -/
theorem foldDigits_ones (z : Nat) (cs : List Char) :
    foldDigits 0 (List.replicate z '1' ++ cs) = foldDigits 0 cs := by
  induction z with
  | zero => rfl
  | succ z ih =>
    show foldDigits 0 ('1' :: (List.replicate z '1' ++ cs)) = _
    simp only [foldDigits, charIndex_one]
    exact ih

/-- Digit characters of in-range digits parse back to the digits. -/
theorem foldDigits_map (ds : List Nat) (hds : ∀ d ∈ ds, d < 58) :
    ∀ acc, foldDigits acc (ds.map fun d => ALPHABET.getD d '1') =
      some (ds.foldl (fun m d => m * 58 + d) acc) := by
  induction ds with
  | nil => intro acc; rfl
  | cons d t ih =>
    intro acc
    have hd : d < 58 := hds d (List.mem_cons_self _ _)
    show foldDigits acc (ALPHABET.getD d '1' :: _) = _
    simp only [foldDigits, charIndex_getD d hd]
    exact ih (fun x hx => hds x (List.mem_cons_of_mem _ hx)) _

theorem takeWhile_replicate_append (z : Nat) (rest : List Char) :
    (List.replicate z '1' ++ rest).takeWhile (· == '1') =
      List.replicate z '1' ++ rest.takeWhile (· == '1') := by
  induction z with
  | zero => rfl
  | succ z ih =>
    simp only [List.replicate_succ, List.cons_append, List.takeWhile_cons]
    rw [if_pos (by decide)]
    rw [ih]

theorem takeWhile_nil_of_head {p : Char → Bool} {rest : List Char}
    (h : ∀ c, rest.head? = some c → p c = false) :
    rest.takeWhile p = [] := by
  cases rest with
  | nil => rfl
  | cons c t =>
    rw [List.takeWhile_cons, if_neg]
    rw [h c rfl]
    simp

theorem dropWhile_head_false (p : Nat → Bool) : ∀ (l : List Nat) (x : Nat),
    (l.dropWhile p).head? = some x → p x = false := by
  intro l
  induction l with
  | nil => intro x h; cases h
  | cons a t ih =>
    intro x h
    rw [List.dropWhile_cons] at h
    by_cases hp : p a = true
    · rw [if_pos hp] at h
      exact ih x h
    · rw [if_neg hp] at h
      simp only [List.head?_cons, Option.some.injEq] at h
      subst h
      exact Bool.not_eq_true _ |>.mp hp

theorem beFold_dropWhile_zero (base : Nat) :
    ∀ l : List Nat, beFold base (l.dropWhile (· == 0)) = beFold base l := by
  intro l
  induction l with
  | nil => rfl
  | cons a t ih =>
    rw [List.dropWhile_cons]
    by_cases h : a = 0
    · subst h
      rw [if_pos (by decide), beFold_cons_zero]
      exact ih
    · rw [if_neg (by simpa using h)]

theorem takeWhile_zero_replicate :
    ∀ l : List Nat, l.takeWhile (· == 0) =
      List.replicate (l.takeWhile (· == 0)).length 0 := by
  intro l
  induction l with
  | nil => rfl
  | cons a t ih =>
    rw [List.takeWhile_cons]
    by_cases h : a = 0
    · subst h
      rw [if_pos (by decide)]
      simp only [List.length_cons, List.replicate_succ]
      rw [← ih]
    · rw [if_neg (by simpa using h)]
      rfl

/-- Membership in `dropWhile` output implies membership in the input. -/
theorem mem_dropWhile {p : Nat → Bool} :
    ∀ (l : List Nat) (x : Nat), x ∈ l.dropWhile p → x ∈ l := by
  intro l
  induction l with
  | nil => intro x h; cases h
  | cons a t ih =>
    intro x h
    rw [List.dropWhile_cons] at h
    by_cases hp : p a = true
    · rw [if_pos hp] at h
      exact List.mem_cons_of_mem _ (ih x h)
    · rw [if_neg hp] at h
      exact h

/-- C4: for every byte sequence of length up to 64, `decode ∘ encode` is
the identity; leading zero bytes survive as leading `'1'` characters and
are reconstructed on decode. -/
theorem decode_encode (b : List Nat) (hlen : b.length ≤ 64)
    (hb : ∀ x ∈ b, x < 256) : decode (encode b) = some b := by
  by_cases hnil : b = []
  · subst hnil
    rfl
  · set z := (b.takeWhile (· == 0)).length with hz
    set n := beFold 256 b with hn
    set ds := natToDigitsBE 58 n with hds
    have hdlt : ∀ d ∈ ds, d < 58 := hds ▸ natToDigitsBE_lt 58 n (by omega)
    have hfirst : ∀ c, (ds.map fun d => ALPHABET.getD d '1').head? = some c →
        (c == '1') = false := by
      intro c hc
      cases hne : ds with
      | nil => rw [hne] at hc; cases hc
      | cons d t =>
        rw [hne] at hc
        simp only [List.map_cons, List.head?_cons, Option.some.injEq] at hc
        subst hc
        have hn0 : n ≠ 0 := by
          intro h0
          have : ds = [] := by rw [hds, h0, natToDigitsBE_zero]
          rw [this] at hne
          cases hne
        have hd0 : d ≠ 0 := by
          apply natToDigitsBE_head_ne_zero 58 n (by omega) hn0
          rw [← hds, hne]
          rfl
        have hne1 := getD_ne_one d
          (hdlt d (by rw [hne]; exact List.mem_cons_self _ _)) hd0
        simpa using hne1
    have hdata_ne : List.replicate z '1' ++
        (ds.map fun d => ALPHABET.getD d '1') ≠ [] := by
      by_cases hall : ∀ x ∈ b, x = 0
      · obtain ⟨b0, t, rfl⟩ : ∃ b0 t, b = b0 :: t := by
          cases b with
          | nil => exact absurd rfl hnil
          | cons b0 t => exact ⟨b0, t, rfl⟩
        have hb0 : b0 = 0 := hall b0 (List.mem_cons_self _ _)
        subst hb0
        have hz1 : 1 ≤ z := by
          rw [hz, List.takeWhile_cons, if_pos (by decide)]
          simp
        intro hemp
        rcases List.append_eq_nil.mp hemp with ⟨h1, _⟩
        have hlen1 := congrArg List.length h1
        simp only [List.length_replicate, List.length_nil] at hlen1
        omega
      · push_neg at hall
        obtain ⟨x, hxmem, hx0⟩ := hall
        have hn0 : n ≠ 0 := by
          intro h0
          exact hx0 (beFold_eq_zero 256 (by omega) b (hn.symm.symm ▸ h0) x hxmem)
        intro hemp
        rcases List.append_eq_nil.mp hemp with ⟨_, h2⟩
        have hds0 : ds = [] := by
          cases hds' : ds with
          | nil => rfl
          | cons d t => rw [hds'] at h2; cases h2
        exact natToDigitsBE_ne_nil 58 n (by omega) hn0 (hds ▸ hds0)
    have hencode : encode b = String.mk (List.replicate z '1' ++
        (ds.map fun d => ALPHABET.getD d '1')) := by
      rw [encode, if_neg hnil]
    have hstr_ne : String.mk (List.replicate z '1' ++
        (ds.map fun d => ALPHABET.getD d '1')) ≠ "" := by
      intro h
      exact hdata_ne (congrArg String.data h)
    have hfold : foldDigits 0 (List.replicate z '1' ++
        (ds.map fun d => ALPHABET.getD d '1')) = some n := by
      rw [foldDigits_ones, foldDigits_map ds hdlt 0]
      congr 1
      have hbeF : beFold 58 ds = n := by
        rw [hds]
        exact beFold_natToDigitsBE 58 (by omega) n
      exact hbeF
    have htake : ((List.replicate z '1' ++
        (ds.map fun d => ALPHABET.getD d '1')).takeWhile (· == '1')).length
          = z := by
      rw [takeWhile_replicate_append, takeWhile_nil_of_head hfirst]
      simp
    have hdigits : natToDigitsBE 256 n = b.dropWhile (· == 0) := by
      have h1 : n = beFold 256 (b.dropWhile (· == 0)) := by
        rw [hn, beFold_dropWhile_zero]
      rw [h1]
      apply natToDigitsBE_beFold 256 (by omega)
      · exact fun x hx => hb x (mem_dropWhile b x hx)
      · refine Or.inr fun d hd => ?_
        have hfalse := dropWhile_head_false (· == 0) b d hd
        simpa using hfalse
    rw [hencode, decode, if_neg hstr_ne,
      show (String.mk (List.replicate z '1' ++
        (ds.map fun d => ALPHABET.getD d '1'))).data =
        List.replicate z '1' ++ (ds.map fun d => ALPHABET.getD d '1')
        from rfl,
      hfold, Option.map_some', htake, hdigits]
    congr 1
    have hrep : List.replicate z 0 = b.takeWhile (· == 0) := by
      rw [hz]
      exact (takeWhile_zero_replicate b).symm
    rw [hrep, List.takeWhile_append_dropWhile]

/-- C4 witness: the spec's own leading-zero example `[0, 0, 5]`. -/
theorem decode_encode_witness :
    (([0, 0, 5] : List Nat).length ≤ 64 ∧ ∀ x ∈ ([0, 0, 5] : List Nat),
      x < 256) ∧
      decode (encode [0, 0, 5]) = some [0, 0, 5] :=
  ⟨⟨by decide, by decide⟩, decode_encode [0, 0, 5] (by decide) (by decide)⟩

end Base58

/-! ## C3 -/

/-- C3: address derivation computes a single
`pubKeyHash = shortHash160(sha256(derivedKeyMaterial))` and derives all
three addresses from that same hash — legacy is
`Base58Check([0x00] ++ pubKeyHash)`, segwit-compat is
`Base58Check([0x05] ++ shortHash160(sha256([0x00, 0x14] ++ pubKeyHash)))`,
native segwit is the Bech32 encoding under hrp `"bc"` of
`[0] ++ convertBits(pubKeyHash, 8, 5, pad := true)`; no address uses an
independently re-derived hash.  (Stated for every input, which covers
every 33-byte derived key material.) -/
theorem deriveAddresses_single_pubKeyHash (publicKey : List Nat) :
    ∃ program,
      Bech32.convertBits
        (BitcoinCrypto.ripemd160 (BitcoinCrypto.sha256 publicKey)) 8 5 true =
          some program ∧
      BitcoinKeyGenerator.deriveAddresses publicKey = .ok
        { legacy := Base58.encodeCheck (0x00 ::
            BitcoinCrypto.ripemd160 (BitcoinCrypto.sha256 publicKey)),
          segwit := Base58.encodeCheck (0x05 ::
            BitcoinCrypto.ripemd160 (BitcoinCrypto.sha256 (0x00 :: 0x14 ::
              BitcoinCrypto.ripemd160 (BitcoinCrypto.sha256 publicKey)))),
          nativeSegwit := Bech32.encode "bc" (0 :: program) } :=
  deriveAddresses_spec publicKey

/-! ## C5 -/

theorem generateKeyAtIndex_ok (i now : Nat) :
    ∃ k, UseInfiniteKeys.generateKeyAtIndex i now = .ok k ∧
      k.id = "key-" ++ Nat.repr i ∧
      k.index = (if i < 1000000000000 then i else 0) := by
  obtain ⟨a, _, hok⟩ := generateKeyFromPrivateKey_ok
    (BitcoinKeyGenerator.generateFixedPrivateKeyFromIndex i) i now
  exact ⟨_, hok, rfl, rfl⟩

/-- The generation loop, run over indices whose ids are fresh and
pairwise distinct, emits exactly one record per index (in order) and
appends exactly those ids to the generated-id set. -/
theorem generateKeysGo_spec (now : Nat) :
    ∀ (count start : Nat) (gen : List String),
      start + count ≤ 1000000000000 →
      (∀ j, j < count → ("key-" ++ Nat.repr (start + j)) ∉ gen) →
      (∀ j1, j1 < count → ∀ j2, j2 < count → j1 ≠ j2 →
        ("key-" ++ Nat.repr (start + j1)) ≠ ("key-" ++ Nat.repr (start + j2))) →
      (UseInfiniteKeys.generateKeysGo gen start now count).1.map
          (fun k => (k.id, k.index)) =
        (List.range' start count).map (fun i => ("key-" ++ Nat.repr i, i)) ∧
      (UseInfiniteKeys.generateKeysGo gen start now count).2 =
        gen ++ (List.range' start count).map (fun i => "key-" ++ Nat.repr i) := by
  intro count
  induction count with
  | zero =>
    intro start gen _ _ _
    constructor
    · rfl
    · simp [UseInfiniteKeys.generateKeysGo]
  | succ count ih =>
    intro start gen hbound hfresh hdist
    obtain ⟨k, hok, hid, hidx⟩ := generateKeyAtIndex_ok start now
    have hfresh0 : ("key-" ++ Nat.repr start) ∉ gen := by
      have := hfresh 0 (by omega)
      simpa using this
    have hcont : gen.contains ("key-" ++ Nat.repr start) = false := by
      simpa using hfresh0
    have hstart_lt : start < 1000000000000 := by omega
    have hkid : k.id = "key-" ++ Nat.repr start := hid
    have hkidx : k.index = start := by rw [hidx, if_pos hstart_lt]
    -- the inductive call
    have hfresh' : ∀ j, j < count →
        ("key-" ++ Nat.repr (start + 1 + j)) ∉ gen ++ [k.id] := by
      intro j hj
      rw [List.mem_append]
      rintro (hmem | hmem)
      · have hnot := hfresh (j + 1) (by omega)
        rw [show start + (j + 1) = start + 1 + j by omega] at hnot
        exact hnot hmem
      · rw [List.mem_singleton, hkid] at hmem
        have hne := hdist 0 (by omega) (j + 1) (by omega) (by omega)
        rw [Nat.add_zero, show start + (j + 1) = start + 1 + j by omega] at hne
        exact hne hmem.symm
    have hdist' : ∀ j1, j1 < count → ∀ j2, j2 < count → j1 ≠ j2 →
        ("key-" ++ Nat.repr (start + 1 + j1)) ≠
          ("key-" ++ Nat.repr (start + 1 + j2)) := by
      intro j1 h1 j2 h2 hne
      have := hdist (j1 + 1) (by omega) (j2 + 1) (by omega) (by omega)
      rwa [show start + (j1 + 1) = start + 1 + j1 by omega,
        show start + (j2 + 1) = start + 1 + j2 by omega] at this
    obtain ⟨ih1, ih2⟩ := ih (start + 1) (gen ++ [k.id]) (by omega) hfresh' hdist'
    simp only [UseInfiniteKeys.generateKeysGo, hcont, Bool.false_eq_true,
      if_false, hok, exceptElim_ok]
    constructor
    · rw [List.range'_succ, List.map_cons, List.map_cons, ih1, hkid, hkidx]
    · rw [ih2, hkid, List.range'_succ, List.map_cons, List.append_assoc,
        List.singleton_append]

theorem keysState_keys_mk (a : List BitcoinKey) (b : Nat) (c : List String)
    (d : Bool) :
    ({ keys := a, currentIndex := b, generatedIds := c, loading := d } :
      UseInfiniteKeys.KeysState).keys = a := rfl

theorem keysState_currentIndex_mk (a : List BitcoinKey) (b : Nat)
    (c : List String) (d : Bool) :
    ({ keys := a, currentIndex := b, generatedIds := c, loading := d } :
      UseInfiniteKeys.KeysState).currentIndex = b := rfl

/-- `loadMore` on a non-loading state, expressed on the state's
components. -/
theorem loadMore_mk (K : List BitcoinKey) (C : Nat) (G : List String)
    (now : Nat) :
    UseInfiniteKeys.loadMore ⟨K, C, G, false⟩ now =
      { keys := K ++ (UseInfiniteKeys.generateKeysGo G C now 50).1.filter
          (fun k => !((K.map (·.id)).contains k.id)),
        currentIndex := C + 50,
        generatedIds := (UseInfiniteKeys.generateKeysGo G C now 50).2,
        loading := false } := rfl

set_option maxHeartbeats 3200000 in
/-- C5: from a fresh controller (cursor 0, no emitted ids), two sequential
`loadMore` calls (batch size 50) materialize exactly the records of
indices `0..99`, each index exactly once and with pairwise distinct ids;
the cursor advances by the batch size on each call — and in general
`loadMore` advances the cursor by exactly `BATCH_SIZE` whenever it runs
(no-op while `loading`), regardless of how many ids were skipped. -/
theorem loadMore_twice_materializes (now1 now2 : Nat) :
    ((UseInfiniteKeys.loadMore (UseInfiniteKeys.loadMore
        UseInfiniteKeys.initialKeysState now1) now2).keys.map (·.index)) =
      List.range 100 ∧
    ((UseInfiniteKeys.loadMore (UseInfiniteKeys.loadMore
        UseInfiniteKeys.initialKeysState now1) now2).keys.map (·.id)).Nodup ∧
    (UseInfiniteKeys.loadMore UseInfiniteKeys.initialKeysState
        now1).currentIndex = 50 ∧
    (UseInfiniteKeys.loadMore (UseInfiniteKeys.loadMore
        UseInfiniteKeys.initialKeysState now1) now2).currentIndex = 100 ∧
    (∀ s now, (UseInfiniteKeys.loadMore s now).currentIndex =
      if s.loading then s.currentIndex
      else s.currentIndex + UseInfiniteKeys.BATCH_SIZE) := by
  obtain ⟨hm1, hg1⟩ := generateKeysGo_spec now1 50 0 [] (by norm_num)
    (by intro j hj; simp) (by decide)
  rw [List.nil_append] at hg1
  have hids1 : (UseInfiniteKeys.generateKeysGo [] 0 now1 50).1.map (·.id) =
      (List.range' 0 50).map (fun i => "key-" ++ Nat.repr i) := by
    have h := congrArg (List.map Prod.fst) hm1
    rwa [List.map_map, List.map_map] at h
  have hidx1 : (UseInfiniteKeys.generateKeysGo [] 0 now1 50).1.map
      (·.index) = List.range' 0 50 := by
    have h := congrArg (List.map Prod.snd) hm1
    rw [List.map_map, List.map_map] at h
    simpa using h
  obtain ⟨hm2, hg2⟩ := generateKeysGo_spec now2 50 50
    ((List.range' 0 50).map fun i => "key-" ++ Nat.repr i) (by norm_num)
    (by decide) (by decide)
  have hids2 : (UseInfiniteKeys.generateKeysGo
      ((List.range' 0 50).map fun i => "key-" ++ Nat.repr i)
      50 now2 50).1.map (·.id) =
      (List.range' 50 50).map (fun i => "key-" ++ Nat.repr i) := by
    have h := congrArg (List.map Prod.fst) hm2
    rwa [List.map_map, List.map_map] at h
  have hidx2 : (UseInfiniteKeys.generateKeysGo
      ((List.range' 0 50).map fun i => "key-" ++ Nat.repr i)
      50 now2 50).1.map (·.index) = List.range' 50 50 := by
    have h := congrArg (List.map Prod.snd) hm2
    rw [List.map_map, List.map_map] at h
    simpa using h
  have hfilter1 : (UseInfiniteKeys.generateKeysGo [] 0 now1 50).1.filter
      (fun k => !((([] : List BitcoinKey).map (·.id)).contains k.id)) =
      (UseInfiniteKeys.generateKeysGo [] 0 now1 50).1 :=
    List.filter_eq_self.mpr (fun a _ => by simp)
  have hs1 : UseInfiniteKeys.loadMore UseInfiniteKeys.initialKeysState now1 =
      { keys := (UseInfiniteKeys.generateKeysGo [] 0 now1 50).1,
        currentIndex := 50,
        generatedIds := (UseInfiniteKeys.generateKeysGo [] 0 now1 50).2,
        loading := false } := by
    rw [show UseInfiniteKeys.initialKeysState =
        (⟨[], 0, [], false⟩ : UseInfiniteKeys.KeysState) from rfl,
      loadMore_mk, List.nil_append, hfilter1,
      show (0 : Nat) + 50 = 50 from rfl]
  have hfilter2 : (UseInfiniteKeys.generateKeysGo
      ((List.range' 0 50).map fun i => "key-" ++ Nat.repr i)
      50 now2 50).1.filter
      (fun k => !(((UseInfiniteKeys.generateKeysGo [] 0 now1 50).1.map
        (·.id)).contains k.id)) =
      (UseInfiniteKeys.generateKeysGo
        ((List.range' 0 50).map fun i => "key-" ++ Nat.repr i)
        50 now2 50).1 := by
    apply List.filter_eq_self.mpr
    intro a ha
    have hmem : a.id ∈ (UseInfiniteKeys.generateKeysGo
        ((List.range' 0 50).map fun i => "key-" ++ Nat.repr i)
        50 now2 50).1.map (·.id) := List.mem_map_of_mem _ ha
    rw [hids2] at hmem
    rw [hids1]
    have hnotin : ∀ x ∈ (List.range' 50 50).map
        (fun i => "key-" ++ Nat.repr i),
        x ∉ (List.range' 0 50).map (fun i => "key-" ++ Nat.repr i) := by
      decide
    have hx := hnotin a.id hmem
    simpa using hx
  have hs2 : UseInfiniteKeys.loadMore (UseInfiniteKeys.loadMore
      UseInfiniteKeys.initialKeysState now1) now2 =
      { keys := (UseInfiniteKeys.generateKeysGo [] 0 now1 50).1 ++
          (UseInfiniteKeys.generateKeysGo
            ((List.range' 0 50).map fun i => "key-" ++ Nat.repr i)
            50 now2 50).1,
        currentIndex := 100,
        generatedIds := (UseInfiniteKeys.generateKeysGo
          ((List.range' 0 50).map fun i => "key-" ++ Nat.repr i)
          50 now2 50).2,
        loading := false } := by
    rw [hs1, loadMore_mk, hg1, hfilter2, show (50 : Nat) + 50 = 100 from rfl]
  refine ⟨?_, ?_, ?_, ?_, ?_⟩
  · rw [hs2, keysState_keys_mk, List.map_append, hidx1, hidx2,
      List.range_eq_range']
    have h := List.range'_append 0 50 50 1
    simpa using h
  · rw [hs2, keysState_keys_mk, List.map_append, hids1, hids2]
    decide
  · rw [hs1, keysState_currentIndex_mk]
  · rw [hs2, keysState_currentIndex_mk]
  · intro s now
    by_cases h : s.loading
    · simp [UseInfiniteKeys.loadMore, h]
    · simp [UseInfiniteKeys.loadMore, h]

/-! ## C6 -/

/-- A concrete materialized record whose private-key hex contains `"abc"`
(the phase-1 match of the `"abc"` query in the cancellation scenario). -/
def abcKey : BitcoinKey :=
  { id := "key-3", privateKeyHex := "00abc456", privateKeyWIF := "w3",
    publicKey := "p3", addresses := ⟨"L3", "S3", "N3"⟩,
    balances := ⟨none, none, none⟩, timestamp := 0, index := 3 }

/-- The controller state before any search: one materialized key, no
session, nothing aborted. -/
def searchState0 : UseInfiniteKeys.SearchState :=
  { keys := [abcKey], searchResults := [], searchLoading := false,
    searchCompleted := false, ctrlCounter := 0, currentCtrl := none,
    aborted := [] }

/-- The suspended `"abc"` session produced by `startSearch` on
`searchState0`: controller 0, phase-1 match `[abcKey]`, scan not yet
started. -/
def sessionA : UseInfiniteKeys.SearchSession :=
  { term := "abc", ctrl := 0, loadedMatches := [abcKey], searchIndex := 0,
    found := [], scanDone := false }

/-- `sessionA` after its first scan step observes the abort of its own
controller: `scanDone` set, nothing found in phase 2. -/
def sessionA1 : UseInfiniteKeys.SearchSession :=
  { term := "abc", ctrl := 0, loadedMatches := [abcKey], searchIndex := 0,
    found := [], scanDone := true }

/-- The shared state after the `"xyz"` search supersedes the `"abc"`
session: controller 0 aborted, controller 1 current. -/
def stateAfterB : UseInfiniteKeys.SearchState :=
  (UseInfiniteKeys.startSearch "xyz"
    (UseInfiniteKeys.startSearch "abc" searchState0).1).1

/-- C6 (code bug witness): results of a superseded search session are
published as final.  Session A (query `"abc"`, phase-1 match `abcKey`) is
superseded by session B (query `"xyz"`); A's scan observes its captured
signal and stops with no phase-2 results; but A's completion guard reads
`searchAbortController.current` — B's fresh, un-aborted controller — so A
publishes `[abcKey]` with `searchCompleted = true` and
`searchLoading = false`, even though the current query is `"xyz"` and
`abcKey` does not match it. -/
theorem cancelled_search_results_published :
    (UseInfiniteKeys.startSearch "abc" searchState0).2 = some sessionA ∧
    stateAfterB.currentCtrl = some 1 ∧
    sessionA.ctrl = 0 ∧
    stateAfterB.aborted = [0] ∧
    UseInfiniteKeys.matchesKey "abc" abcKey = true ∧
    UseInfiniteKeys.matchesKey "xyz" abcKey = false ∧
    (UseInfiniteKeys.finishSearch stateAfterB
      (UseInfiniteKeys.stepBatch stateAfterB sessionA 0)).searchResults =
      [abcKey] ∧
    (UseInfiniteKeys.finishSearch stateAfterB
      (UseInfiniteKeys.stepBatch stateAfterB sessionA 0)).searchCompleted =
      true ∧
    (UseInfiniteKeys.finishSearch stateAfterB
      (UseInfiniteKeys.stepBatch stateAfterB sessionA 0)).searchLoading =
      false := by
  have hB : stateAfterB = ⟨[abcKey], [], true, false, 2, some 1, [0]⟩ := by
    decide
  have hstep : UseInfiniteKeys.stepBatch stateAfterB sessionA 0 = sessionA1 := by
    decide
  have hfinish : UseInfiniteKeys.finishSearch stateAfterB sessionA1 =
      ⟨[abcKey], [abcKey], false, true, 2, some 1, [0]⟩ := by
    rw [hB]
    unfold UseInfiniteKeys.finishSearch
    simp only [sessionA1, List.filter_nil, List.append_nil,
      List.mergeSort_singleton]
    decide
  refine ⟨by decide, by decide, rfl, by decide, by decide, by decide,
    ?_, ?_, ?_⟩
  · rw [hstep, hfinish]
  · rw [hstep, hfinish]
  · rw [hstep, hfinish]
